import Mathlib

/-!
# M6 destination classifier (`kernel/modules/m6_classifier.c`)

A shallow embedding of the netfilter hooks `ipv4_hookfn` and `ipv6_hookfn`, of
the four packet counters they update, and of the `/proc/m6_stats` renderer
`m6_stats_show`.

* C `unsigned int` counters are natural numbers; `++` is `(x + 1) % 2 ^ 32`.
* The module's static counters are an explicit record passed to and returned
  by every operation.
* `printk` calls are returned as the list of calls made, each one the format
  string with its arguments; `seq_printf` appends the formatted text to the
  buffer of the `seq_file`.
* A pointer that may be `NULL` is an `Option`.
-/

namespace M6

/-! ## Kernel constants and types used by the module -/

/-- The netfilter verdict `NF_ACCEPT`, the "allow" disposition. Its value is
set by the kernel header `linux/netfilter.h`, outside the module's source. -/
def NF_ACCEPT : Nat := 1

/-- The number of values of a C `unsigned int` (and of `u32`, `__be32`). -/
def UINT_MOD : Nat := 2 ^ 32

/-- The host's byte order, fixed when the kernel is built. -/
inductive byte_order where
  | little_endian
  | big_endian
  deriving DecidableEq, Repr

/-- A `__be32` field as it lies in memory: four bytes in address order. For a
destination `a.b.c.d` on the wire these are `a`, `b`, `c`, `d`. Each field is
read modulo 256. -/
structure be32 where
  b0 : Nat
  b1 : Nat
  b2 : Nat
  b3 : Nat
  deriving DecidableEq, Repr

/-- The 32-bit value the host obtains when it reads a `__be32` field as a plain
integer, as `iph->daddr` does. -/
def be32.load (e : byte_order) (m : be32) : Nat :=
  match e with
  | .little_endian =>
      m.b0 % 256 + (m.b1 % 256) * 2 ^ 8 + (m.b2 % 256) * 2 ^ 16 + (m.b3 % 256) * 2 ^ 24
  | .big_endian =>
      (m.b0 % 256) * 2 ^ 24 + (m.b1 % 256) * 2 ^ 16 + (m.b2 % 256) * 2 ^ 8 + m.b3 % 256

/-- The kernel's 32-bit byte swap, which `ntohl` expands to on a little-endian
host. It is kernel code, outside the module's source. -/
def swab32 (x : Nat) : Nat :=
  ((x &&& 0x000000ff) <<< 24) ||| ((x &&& 0x0000ff00) <<< 8) |||
    ((x &&& 0x00ff0000) >>> 8) ||| ((x &&& 0xff000000) >>> 24)

/-- The kernel's `ntohl`: a byte swap on a little-endian host, the identity on
a big-endian one. It is kernel code, outside the module's source. -/
def ntohl (e : byte_order) (x : Nat) : Nat :=
  match e with
  | .little_endian => swab32 x
  | .big_endian => x

/-- The part of `struct iphdr` the module reads. -/
structure iphdr where
  daddr : be32
  deriving DecidableEq, Repr

/-- The part of `struct ipv6hdr` that holds the destination (a 128-bit value).
Neither hook reads it. -/
structure ipv6hdr where
  daddr : Nat
  deriving DecidableEq, Repr

/-- A socket buffer: `iph` is what `ip_hdr(skb)` yields (`none` for `NULL`),
`ip6h` the IPv6 header of an IPv6 packet. -/
structure sk_buff where
  iph : Option iphdr
  ip6h : Option ipv6hdr
  deriving DecidableEq, Repr

/-- The kernel accessor `ip_hdr`, outside the module's source. -/
def ip_hdr (skb : sk_buff) : Option iphdr := skb.iph

/-! ## Formatted output -/

/-- An argument of a `printk` or `seq_printf` call. -/
inductive fmt_arg where
  | uint (n : Nat)
  | ip4_ptr (p : be32)
  deriving DecidableEq, Repr

/-- The digits of `n`, least significant first, as the kernel's number
formatter produces them before reversing: at least one digit, at most `fuel`. -/
def dec_digits_rev : Nat → Nat → List Char
  | 0, _ => []
  | fuel + 1, n =>
      if n / 10 = 0 then [Nat.digitChar (n % 10)]
      else Nat.digitChar (n % 10) :: dec_digits_rev fuel (n / 10)

/-- The conversion `%u` of an `unsigned int`: the decimal digits, most
significant first, no padding and no sign. Ten digits hold any 32-bit value. -/
def fmt_u (n : Nat) : List Char :=
  (dec_digits_rev 10 (n % UINT_MOD)).reverse

/-- The conversion `%pI4`: the four bytes at the pointer, in address order, in
decimal and separated by dots. -/
def fmt_pI4 (p : be32) : List Char :=
  fmt_u (p.b0 % 256) ++ '.' :: fmt_u (p.b1 % 256) ++ '.' :: fmt_u (p.b2 % 256) ++
    '.' :: fmt_u (p.b3 % 256)

/-- The kernel's `vsnprintf`, outside the module's source, for the conversions
this module uses (`%u` and `%pI4`), on the characters of the format. Any other
character is copied. -/
def vsnprintf : List Char → List fmt_arg → List Char
  | [], _ => []
  | '%' :: 'u' :: rest, .uint n :: args => fmt_u n ++ vsnprintf rest args
  | '%' :: 'p' :: 'I' :: '4' :: rest, .ip4_ptr p :: args => fmt_pI4 p ++ vsnprintf rest args
  | c :: rest, args => c :: vsnprintf rest args

/-- One call of `printk(KERN_INFO fmt, args...)`. Every call of the module
uses the level `KERN_INFO`, which is left out. -/
structure printk_call where
  fmt : String
  args : List fmt_arg
  deriving DecidableEq, Repr

/-- The text a `printk` call adds to the kernel log. -/
def printk_call.text (p : printk_call) : String :=
  String.mk (vsnprintf p.fmt.data p.args)

/-- The output buffer of a `seq_file`. -/
structure seq_file where
  buf : String
  deriving DecidableEq, Repr

/-- The kernel's `seq_printf`, outside the module's source: the formatted text
is appended to the buffer, which grows as needed. -/
def seq_printf (m : seq_file) (fmt : String) (args : List fmt_arg) : seq_file :=
  { buf := m.buf ++ String.mk (vsnprintf fmt.data args) }

/-! ## Module state -/

/-- The module's static counters `count_class_a`, `count_class_b`,
`count_class_c` and `count_ipv6`. -/
structure m6_counters where
  count_class_a : Nat
  count_class_b : Nat
  count_class_c : Nat
  count_ipv6 : Nat
  deriving DecidableEq, Repr

/-- The counters when the module is loaded: each static initialiser is `0`. -/
def m6_counters.init : m6_counters :=
  { count_class_a := 0, count_class_b := 0, count_class_c := 0, count_ipv6 := 0 }

/-- Every counter holds a value of `unsigned int`. -/
def m6_counters.wf (s : m6_counters) : Prop :=
  s.count_class_a < UINT_MOD ∧ s.count_class_b < UINT_MOD ∧
    s.count_class_c < UINT_MOD ∧ s.count_ipv6 < UINT_MOD

instance (s : m6_counters) : Decidable s.wf := by
  unfold m6_counters.wf; infer_instance

/-- The threshold of class A. -/
def THRESHOLD_A : Nat := 15

/-- The threshold of class B. -/
def THRESHOLD_B : Nat := 10

/-- The threshold of class C. -/
def THRESHOLD_C : Nat := 7

/-- The threshold of IPv6. -/
def THRESHOLD_IPV6 : Nat := 5

/-- What one call of a hook does: the verdict returned, the counters after
the call, and the `printk` calls made, in order. -/
structure hook_result where
  verdict : Nat
  counters : m6_counters
  log : List printk_call
  deriving DecidableEq, Repr

/-! ## The hooks -/

/-- The octet `ipv4_hookfn` classifies: `(ntohl(iph->daddr) >> 24) & 0xFF`,
stored in a `u8`. -/
def first_octet (e : byte_order) (iph : iphdr) : Nat :=
  let daddr := ntohl e (iph.daddr.load e)
  ((daddr >>> 24) &&& 0xFF) % 256

/-- The hook for IPv4 packets. The arguments `priv` and `state` are unused. -/
def ipv4_hookfn (e : byte_order) (c : m6_counters) (skb : Option sk_buff) : hook_result :=
  match skb with
  | none => { verdict := NF_ACCEPT, counters := c, log := [] }
  | some skb =>
    match ip_hdr skb with
    | none => { verdict := NF_ACCEPT, counters := c, log := [] }
    | some iph =>
      let first_octet := first_octet e iph
      let log := [printk_call.mk "M6: Dest IP: %pI4 - First octet: %u\n"
        [.ip4_ptr iph.daddr, .uint first_octet]]
      if first_octet ≥ 1 ∧ first_octet ≤ 127 then
        let c := { c with count_class_a := (c.count_class_a + 1) % UINT_MOD }
        let log := log ++ [printk_call.mk "M6: IPv4 Class A destination\n" []]
        let log := if c.count_class_a > THRESHOLD_A then
            log ++ [printk_call.mk "M6: [SIMULATION] Traffic shaping triggered for Class A\n" []]
          else log
        { verdict := NF_ACCEPT, counters := c, log := log }
      else if first_octet ≥ 128 ∧ first_octet ≤ 191 then
        let c := { c with count_class_b := (c.count_class_b + 1) % UINT_MOD }
        let log := log ++ [printk_call.mk "M6: IPv4 Class B destination\n" []]
        let log := if c.count_class_b > THRESHOLD_B then
            log ++ [printk_call.mk "M6: [SIMULATION] Traffic shaping triggered for Class B\n" []]
          else log
        { verdict := NF_ACCEPT, counters := c, log := log }
      else if first_octet ≥ 192 ∧ first_octet ≤ 223 then
        let c := { c with count_class_c := (c.count_class_c + 1) % UINT_MOD }
        let log := log ++ [printk_call.mk "M6: IPv4 Class C destination\n" []]
        let log := if c.count_class_c > THRESHOLD_C then
            log ++ [printk_call.mk "M6: [SIMULATION] Traffic shaping triggered for Class C\n" []]
          else log
        { verdict := NF_ACCEPT, counters := c, log := log }
      else
        let log := log ++ [printk_call.mk "M6: IPv4 Unknown Class\n" []]
        { verdict := NF_ACCEPT, counters := c, log := log }

/-- The hook for IPv6 packets. The arguments `priv` and `state` are unused. -/
def ipv6_hookfn (c : m6_counters) (skb : Option sk_buff) : hook_result :=
  match skb with
  | none => { verdict := NF_ACCEPT, counters := c, log := [] }
  | some _ =>
    let c := { c with count_ipv6 := (c.count_ipv6 + 1) % UINT_MOD }
    let log := [printk_call.mk "M6: IPv6 packet detected\n" []]
    let log := if c.count_ipv6 > THRESHOLD_IPV6 then
        log ++ [printk_call.mk "M6: [SIMULATION] Traffic shaping triggered for IPv6\n" []]
      else log
    { verdict := NF_ACCEPT, counters := c, log := log }

/-- The `show` callback of `/proc/m6_stats`: the returned `int` and the
`seq_file` after the four `seq_printf` calls. The argument `v` is unused. -/
def m6_stats_show (c : m6_counters) (m : seq_file) : Int × seq_file :=
  let m := seq_printf m "IPv4 Class A: %u\n" [.uint c.count_class_a]
  let m := seq_printf m "IPv4 Class B: %u\n" [.uint c.count_class_b]
  let m := seq_printf m "IPv4 Class C: %u\n" [.uint c.count_class_c]
  let m := seq_printf m "IPv6 Packets: %u\n" [.uint c.count_ipv6]
  (0, m)

/-! ## Names for the messages of the hooks -/

/-- The message `ipv4_hookfn` logs for a class A destination. -/
def CLASS_A_MSG : printk_call := ⟨"M6: IPv4 Class A destination\n", []⟩

/-- The message `ipv4_hookfn` logs for a class B destination. -/
def CLASS_B_MSG : printk_call := ⟨"M6: IPv4 Class B destination\n", []⟩

/-- The message `ipv4_hookfn` logs for a class C destination. -/
def CLASS_C_MSG : printk_call := ⟨"M6: IPv4 Class C destination\n", []⟩

/-- The message `ipv4_hookfn` logs for any other destination. -/
def UNKNOWN_MSG : printk_call := ⟨"M6: IPv4 Unknown Class\n", []⟩

/-- The shaping signal of class A. -/
def SIGNAL_A : printk_call :=
  ⟨"M6: [SIMULATION] Traffic shaping triggered for Class A\n", []⟩

/-- The shaping signal of class B. -/
def SIGNAL_B : printk_call :=
  ⟨"M6: [SIMULATION] Traffic shaping triggered for Class B\n", []⟩

/-- The shaping signal of class C. -/
def SIGNAL_C : printk_call :=
  ⟨"M6: [SIMULATION] Traffic shaping triggered for Class C\n", []⟩

/-- The shaping signal of IPv6. -/
def SIGNAL_IPV6 : printk_call :=
  ⟨"M6: [SIMULATION] Traffic shaping triggered for IPv6\n", []⟩

/-- The first message of `ipv4_hookfn` for a packet with a header. -/
def DEST_MSG (e : byte_order) (iph : iphdr) : printk_call :=
  ⟨"M6: Dest IP: %pI4 - First octet: %u\n", [.ip4_ptr iph.daddr, .uint (first_octet e iph)]⟩

/-- An IPv4 packet with destination `a.b.c.d`. -/
def ipv4_packet (a b c d : Nat) : sk_buff :=
  { iph := some { daddr := { b0 := a, b1 := b, b2 := c, b3 := d } }, ip6h := none }

/-- An IPv6 packet with the given destination. -/
def ipv6_packet (daddr : Nat) : sk_buff :=
  { iph := none, ip6h := some { daddr := daddr } }

/-! ## Sequences of calls -/

/-- One invocation by netfilter. `m6_init` registers `ipv4_hookfn` for
`PF_INET` and `ipv6_hookfn` for `PF_INET6`, so the family of the packet decides
which hook runs. -/
inductive hook_call where
  | ipv4 (skb : Option sk_buff)
  | ipv6 (skb : Option sk_buff)
  deriving DecidableEq, Repr

/-- The hook that netfilter runs for a call. -/
def nf_hook (e : byte_order) (c : m6_counters) : hook_call → hook_result
  | .ipv4 skb => ipv4_hookfn e c skb
  | .ipv6 skb => ipv6_hookfn c skb

/-- The counters after the calls have run one after another, the first call of
the list first. -/
def run_hooks (e : byte_order) : m6_counters → List hook_call → m6_counters
  | c, [] => c
  | c, k :: ks => run_hooks e (nf_hook e c k).counters ks

/-! ## The specification's vocabulary -/

/-- The classification labels of the specification. -/
inductive Label where
  | ClassA
  | ClassB
  | ClassC
  | ClassUnknownV4
  | V6
  deriving DecidableEq, Repr

/-- The specification's `classify` on an IPv4 address in host order: the most
significant octet (bits 31 to 24) decides, `[1,127]` class A, `[128,191]`
class B, `[192,223]` class C, otherwise unknown. -/
def spec_classify_ipv4 (host_order : Nat) : Label :=
  let octet := host_order / 2 ^ 24 % 256
  if 1 ≤ octet ∧ octet ≤ 127 then .ClassA
  else if 128 ≤ octet ∧ octet ≤ 191 then .ClassB
  else if 192 ≤ octet ∧ octet ≤ 223 then .ClassC
  else .ClassUnknownV4

/-- The label of the packet of a call, by the specification: an IPv4 packet is
classified by its destination in host order, every IPv6 packet is `V6`, and a
call without a packet or without an IPv4 header carries no label. -/
def spec_label (e : byte_order) : hook_call → Option Label
  | .ipv4 (some skb) =>
      (ip_hdr skb).map (fun iph => spec_classify_ipv4 (ntohl e (iph.daddr.load e)))
  | .ipv6 (some _) => some .V6
  | _ => none

/-- The threshold table of the specification; `ClassUnknownV4` has none. -/
def spec_threshold : Label → Option Nat
  | .ClassA => some 15
  | .ClassB => some 10
  | .ClassC => some 7
  | .V6 => some 5
  | .ClassUnknownV4 => none

/-- The shaping signal the module has for a label; none for `ClassUnknownV4`. -/
def shaping_signal : Label → Option printk_call
  | .ClassA => some SIGNAL_A
  | .ClassB => some SIGNAL_B
  | .ClassC => some SIGNAL_C
  | .V6 => some SIGNAL_IPV6
  | .ClassUnknownV4 => none

/-- The counter the module keeps for a label; none for `ClassUnknownV4`. -/
def label_counter (c : m6_counters) : Label → Option Nat
  | .ClassA => some c.count_class_a
  | .ClassB => some c.count_class_b
  | .ClassC => some c.count_class_c
  | .V6 => some c.count_ipv6
  | .ClassUnknownV4 => none

/-- The number of calls of a sequence whose packet carries the label. -/
def label_count (e : byte_order) (l : Label) (calls : List hook_call) : Nat :=
  calls.countP (fun k => decide (spec_label e k = some l))

/-- The report of the specification: four lines in a fixed order, each count
in decimal. -/
def spec_report (a b c v : Nat) : String :=
  "IPv4 Class A: " ++ toString a ++ "\n" ++
  "IPv4 Class B: " ++ toString b ++ "\n" ++
  "IPv4 Class C: " ++ toString c ++ "\n" ++
  "IPv6 Packets: " ++ toString v ++ "\n"

/-- A counter that held `x` after `n` increments: untouched when `n = 0`. -/
def bumped (x n : Nat) : Nat :=
  if n = 0 then x else (x + n) % UINT_MOD

/-! ## The entry points as steps of the module -/

/-- A run of `m6_stats_show` as a step of the module: its body reads the four
counters and assigns to none of them, so the counters after the run are the
counters before it; with them come the returned `int` and the `seq_file`. -/
def m6_stats_show_step (c : m6_counters) (m : seq_file) : m6_counters × Int × seq_file :=
  (c, m6_stats_show c m)

/-- One entry into the module: a hook call by netfilter, or a run of
`m6_stats_show` on a `seq_file` when `/proc/m6_stats` is read. -/
inductive m6_entry where
  | hook (k : hook_call)
  | stats_show (m : seq_file)
  deriving DecidableEq, Repr

/-- The counters after one entry into the module. -/
def m6_entry.counters_after (e : byte_order) (c : m6_counters) : m6_entry → m6_counters
  | .hook k => (nf_hook e c k).counters
  | .stats_show m => (m6_stats_show_step c m).1

/-- The number a list of decimal digits stands for, least significant digit
first. -/
def dec_value : List Char → Nat
  | [] => 0
  | ch :: rest => (ch.toNat - 48) + 10 * dec_value rest

/-! ## Hook calls on several CPUs -/

/-- The four static counters of the module, as memory cells. -/
inductive counter_id where
  | count_class_a
  | count_class_b
  | count_class_c
  | count_ipv6
  deriving DecidableEq, Repr

/-- A read of a counter from memory. -/
def counter_id.load (x : counter_id) (c : m6_counters) : Nat :=
  match x with
  | .count_class_a => c.count_class_a
  | .count_class_b => c.count_class_b
  | .count_class_c => c.count_class_c
  | .count_ipv6 => c.count_ipv6

/-- A write of a counter to memory. -/
def counter_id.store (x : counter_id) (c : m6_counters) (v : Nat) : m6_counters :=
  match x with
  | .count_class_a => { c with count_class_a := v }
  | .count_class_b => { c with count_class_b := v }
  | .count_class_c => { c with count_class_c := v }
  | .count_ipv6 => { c with count_ipv6 := v }

/-- The counter on which a hook call executes `++`, by the branches of
`ipv4_hookfn` and `ipv6_hookfn`; none on a branch without an increment. -/
def incremented_counter (e : byte_order) : hook_call → Option counter_id
  | .ipv4 none => none
  | .ipv4 (some skb) =>
    match ip_hdr skb with
    | none => none
    | some iph =>
      let first_octet := first_octet e iph
      if first_octet ≥ 1 ∧ first_octet ≤ 127 then some .count_class_a
      else if first_octet ≥ 128 ∧ first_octet ≤ 191 then some .count_class_b
      else if first_octet ≥ 192 ∧ first_octet ≤ 223 then some .count_class_c
      else none
  | .ipv6 none => none
  | .ipv6 (some _) => some .count_ipv6

/-- Where a CPU stands in the hook call it runs. The counters are plain
`unsigned int` variables and `count++` is a read of the variable followed by a
write of the value read plus one, with no atomic operation and no lock around
it: the CPU is before the read, between the read and the write with the value
it read, or past the write. -/
inductive cpu_pc where
  | before
  | loaded (reg : Nat)
  | done
  deriving DecidableEq, Repr

/-- The counters in memory, shared by all CPUs, and where each CPU stands;
CPU `i` runs the `i`-th call of a list of calls. -/
structure smp_state where
  mem : m6_counters
  pcs : List cpu_pc
  deriving DecidableEq, Repr

/-- CPU `i` takes its next step in its call: the read of the counter its call
increments, or the write of the value read plus one. A call without an
increment goes past it in one step. The other steps of a call (the
classification, the `printk` calls, the read for the threshold test) write no
counter and are left out. -/
def smp_step (e : byte_order) (calls : List hook_call) (s : smp_state) (i : Nat) : smp_state :=
  match calls[i]?, s.pcs[i]? with
  | some k, some pc =>
    match incremented_counter e k, pc with
    | some x, .before => { s with pcs := s.pcs.set i (.loaded (x.load s.mem)) }
    | some x, .loaded reg =>
        { mem := x.store s.mem ((reg + 1) % UINT_MOD), pcs := s.pcs.set i .done }
    | none, .before => { s with pcs := s.pcs.set i .done }
    | _, _ => s
  | _, _ => s

/-- The state after the CPUs have taken steps in the order of the schedule,
each entry naming the CPU that steps next. -/
def smp_run (e : byte_order) (calls : List hook_call) : smp_state → List Nat → smp_state
  | s, [] => s
  | s, i :: schedule => smp_run e calls (smp_step e calls s i) schedule

/-- All CPUs are before the increment of their call. -/
def smp_init (c : m6_counters) (calls : List hook_call) : smp_state :=
  { mem := c, pcs := List.replicate calls.length .before }

/-- Every CPU is past the increment of its call. -/
def smp_done (s : smp_state) : Prop := ∀ pc ∈ s.pcs, pc = cpu_pc.done

instance (s : smp_state) : Decidable (smp_done s) := by
  unfold smp_done; infer_instance

/-- The schedule in which the calls run one after another in the given order
of CPUs: each CPU takes its two steps with no step of another CPU between. -/
def serial_schedule : List Nat → List Nat
  | [] => []
  | i :: order => i :: i :: serial_schedule order

/-- What holds of the shared counter `x` in every state that calls which all
increment `x` can reach from a memory where `x` held `v0` and that agreed with
`c0` elsewhere: `x` is at least `v0` and at most `v0` plus the number of CPUs
past their write, at least `v0 + 1` once a CPU is past its write, every value
read lies between the same bounds, and the other counters are those of `c0`. -/
def smp_inv (calls : List hook_call) (x : counter_id) (v0 : Nat) (c0 : m6_counters)
    (s : smp_state) : Prop :=
  s.pcs.length = calls.length ∧
  v0 ≤ x.load s.mem ∧ x.load s.mem ≤ v0 + s.pcs.count .done ∧
  (1 ≤ s.pcs.count .done → v0 + 1 ≤ x.load s.mem) ∧
  (∀ r, cpu_pc.loaded r ∈ s.pcs → v0 ≤ r ∧ r ≤ v0 + s.pcs.count .done) ∧
  (∀ y, y ≠ x → y.load s.mem = y.load c0)

/-! ## Single calls -/

theorem first_octet_lt (e : byte_order) (iph : iphdr) : first_octet e iph < 256 := by
  unfold first_octet
  exact Nat.mod_lt _ (by decide)

/-- C1: for every counter state and every IPv4 packet with a header, where `o`
is the first octet of the host-order destination: `o < 256`; if `1 ≤ o ≤ 127`
only `count_class_a` changes, to its successor modulo `2 ^ 32`; likewise
`count_class_b` for `128 ≤ o ≤ 191` and `count_class_c` for `192 ≤ o ≤ 223`;
and the hook logs the class A, B, C or unknown-class message exactly on its
range (unknown: `0` or `224..255`), so exactly one of the four per call. -/
theorem ipv4_hookfn_counts_by_class (e : byte_order) (c : m6_counters)
    (iph : iphdr) (ip6h : Option ipv6hdr) :
    first_octet e iph < 256 ∧
    (1 ≤ first_octet e iph ∧ first_octet e iph ≤ 127 →
      (ipv4_hookfn e c (some ⟨some iph, ip6h⟩)).counters =
        { c with count_class_a := (c.count_class_a + 1) % UINT_MOD }) ∧
    (128 ≤ first_octet e iph ∧ first_octet e iph ≤ 191 →
      (ipv4_hookfn e c (some ⟨some iph, ip6h⟩)).counters =
        { c with count_class_b := (c.count_class_b + 1) % UINT_MOD }) ∧
    (192 ≤ first_octet e iph ∧ first_octet e iph ≤ 223 →
      (ipv4_hookfn e c (some ⟨some iph, ip6h⟩)).counters =
        { c with count_class_c := (c.count_class_c + 1) % UINT_MOD }) ∧
    (CLASS_A_MSG ∈ (ipv4_hookfn e c (some ⟨some iph, ip6h⟩)).log ↔
      1 ≤ first_octet e iph ∧ first_octet e iph ≤ 127) ∧
    (CLASS_B_MSG ∈ (ipv4_hookfn e c (some ⟨some iph, ip6h⟩)).log ↔
      128 ≤ first_octet e iph ∧ first_octet e iph ≤ 191) ∧
    (CLASS_C_MSG ∈ (ipv4_hookfn e c (some ⟨some iph, ip6h⟩)).log ↔
      192 ≤ first_octet e iph ∧ first_octet e iph ≤ 223) ∧
    (UNKNOWN_MSG ∈ (ipv4_hookfn e c (some ⟨some iph, ip6h⟩)).log ↔
      first_octet e iph = 0 ∨ (224 ≤ first_octet e iph ∧ first_octet e iph ≤ 255)) ∧
    ((ipv4_hookfn e c (some ⟨some iph, ip6h⟩)).log.filter
      (fun p => decide (p ∈ [CLASS_A_MSG, CLASS_B_MSG, CLASS_C_MSG, UNKNOWN_MSG]))).length = 1 := by
  have hlt := first_octet_lt e iph
  simp only [ipv4_hookfn, ip_hdr, CLASS_A_MSG, CLASS_B_MSG, CLASS_C_MSG, UNKNOWN_MSG]
  generalize first_octet e iph = o at hlt ⊢
  refine ⟨hlt, ?_, ?_, ?_, ?_, ?_, ?_, ?_, ?_⟩
  all_goals split_ifs
  all_goals simp [List.filter]
  all_goals omega

/-- C1, at the class A destination `10.0.0.1` from the initial counters. -/
theorem ipv4_hookfn_counts_by_class_witness :
    (1 ≤ first_octet .little_endian ⟨⟨10, 0, 0, 1⟩⟩ ∧
      first_octet .little_endian ⟨⟨10, 0, 0, 1⟩⟩ ≤ 127) ∧
    (ipv4_hookfn .little_endian m6_counters.init (some (ipv4_packet 10 0 0 1))).counters =
      { count_class_a := 1, count_class_b := 0, count_class_c := 0, count_ipv6 := 0 } :=
  ⟨by decide,
   (ipv4_hookfn_counts_by_class .little_endian m6_counters.init ⟨⟨10, 0, 0, 1⟩⟩ none).2.1
     (by decide)⟩

/-- C2: for every counter state, a packet of class A, B or C (through
`ipv4_hookfn`) or an IPv6 packet (through `ipv6_hookfn`) makes the hook emit
the shaping signal of its own label exactly when that label's counter, after
the increment, is greater than the label's threshold (15, 10, 7 and 5), on
every such call, and never the signal of another label. -/
theorem hook_signal_iff_above_threshold (e : byte_order) (c : m6_counters)
    (iph : iphdr) (ip6h : Option ipv6hdr) (skb6 : sk_buff) :
    (THRESHOLD_A = 15 ∧ THRESHOLD_B = 10 ∧ THRESHOLD_C = 7 ∧ THRESHOLD_IPV6 = 5) ∧
    (1 ≤ first_octet e iph ∧ first_octet e iph ≤ 127 →
      (SIGNAL_A ∈ (ipv4_hookfn e c (some ⟨some iph, ip6h⟩)).log ↔
        (ipv4_hookfn e c (some ⟨some iph, ip6h⟩)).counters.count_class_a > THRESHOLD_A) ∧
      SIGNAL_B ∉ (ipv4_hookfn e c (some ⟨some iph, ip6h⟩)).log ∧
      SIGNAL_C ∉ (ipv4_hookfn e c (some ⟨some iph, ip6h⟩)).log ∧
      SIGNAL_IPV6 ∉ (ipv4_hookfn e c (some ⟨some iph, ip6h⟩)).log) ∧
    (128 ≤ first_octet e iph ∧ first_octet e iph ≤ 191 →
      (SIGNAL_B ∈ (ipv4_hookfn e c (some ⟨some iph, ip6h⟩)).log ↔
        (ipv4_hookfn e c (some ⟨some iph, ip6h⟩)).counters.count_class_b > THRESHOLD_B) ∧
      SIGNAL_A ∉ (ipv4_hookfn e c (some ⟨some iph, ip6h⟩)).log ∧
      SIGNAL_C ∉ (ipv4_hookfn e c (some ⟨some iph, ip6h⟩)).log ∧
      SIGNAL_IPV6 ∉ (ipv4_hookfn e c (some ⟨some iph, ip6h⟩)).log) ∧
    (192 ≤ first_octet e iph ∧ first_octet e iph ≤ 223 →
      (SIGNAL_C ∈ (ipv4_hookfn e c (some ⟨some iph, ip6h⟩)).log ↔
        (ipv4_hookfn e c (some ⟨some iph, ip6h⟩)).counters.count_class_c > THRESHOLD_C) ∧
      SIGNAL_A ∉ (ipv4_hookfn e c (some ⟨some iph, ip6h⟩)).log ∧
      SIGNAL_B ∉ (ipv4_hookfn e c (some ⟨some iph, ip6h⟩)).log ∧
      SIGNAL_IPV6 ∉ (ipv4_hookfn e c (some ⟨some iph, ip6h⟩)).log) ∧
    ((SIGNAL_IPV6 ∈ (ipv6_hookfn c (some skb6)).log ↔
        (ipv6_hookfn c (some skb6)).counters.count_ipv6 > THRESHOLD_IPV6) ∧
      SIGNAL_A ∉ (ipv6_hookfn c (some skb6)).log ∧
      SIGNAL_B ∉ (ipv6_hookfn c (some skb6)).log ∧
      SIGNAL_C ∉ (ipv6_hookfn c (some skb6)).log) := by
  refine ⟨⟨rfl, rfl, rfl, rfl⟩, ?_⟩
  simp only [ipv4_hookfn, ipv6_hookfn, ip_hdr, SIGNAL_A, SIGNAL_B, SIGNAL_C, SIGNAL_IPV6]
  generalize first_octet e iph = o
  refine ⟨?_, ?_, ?_, ?_⟩
  · intro h
    rw [if_pos (by omega)]
    split_ifs with h1 <;> simp [h1]
  · intro h
    rw [if_neg (by omega), if_pos (by omega)]
    split_ifs with h1 <;> simp [h1]
  · intro h
    rw [if_neg (by omega), if_neg (by omega), if_pos (by omega)]
    split_ifs with h1 <;> simp [h1]
  · split_ifs with h1 <;> simp [h1]

/-- C2, at the class A destination `50.0.0.1` with `count_class_a` at 15 and
then at 16: both calls emit the class A signal. -/
theorem hook_signal_iff_above_threshold_witness :
    (1 ≤ first_octet .little_endian ⟨⟨50, 0, 0, 1⟩⟩ ∧
      first_octet .little_endian ⟨⟨50, 0, 0, 1⟩⟩ ≤ 127) ∧
    SIGNAL_A ∈ (ipv4_hookfn .little_endian ⟨15, 0, 0, 0⟩ (some (ipv4_packet 50 0 0 1))).log ∧
    SIGNAL_A ∈ (ipv4_hookfn .little_endian ⟨16, 0, 0, 0⟩ (some (ipv4_packet 50 0 0 1))).log ∧
    SIGNAL_A ∉ (ipv4_hookfn .little_endian ⟨14, 0, 0, 0⟩ (some (ipv4_packet 50 0 0 1))).log :=
  ⟨by decide,
   ((hook_signal_iff_above_threshold .little_endian ⟨15, 0, 0, 0⟩ ⟨⟨50, 0, 0, 1⟩⟩ none
      (ipv6_packet 0)).2.1 (by decide)).1.mpr (by decide),
   ((hook_signal_iff_above_threshold .little_endian ⟨16, 0, 0, 0⟩ ⟨⟨50, 0, 0, 1⟩⟩ none
      (ipv6_packet 0)).2.1 (by decide)).1.mpr (by decide),
   fun h => absurd
     (((hook_signal_iff_above_threshold .little_endian ⟨14, 0, 0, 0⟩ ⟨⟨50, 0, 0, 1⟩⟩ none
      (ipv6_packet 0)).2.1 (by decide)).1.mp h) (by decide)⟩

/-- C3: for every counter state and every IPv6 packet, whatever it holds,
`ipv6_hookfn` changes only `count_ipv6`, to its successor modulo `2 ^ 32`, and
emits the IPv6 shaping signal exactly when the new `count_ipv6` is above 5. -/
theorem ipv6_hookfn_counts_and_signals (c : m6_counters) (skb : sk_buff) :
    (ipv6_hookfn c (some skb)).counters =
      { c with count_ipv6 := (c.count_ipv6 + 1) % UINT_MOD } ∧
    (SIGNAL_IPV6 ∈ (ipv6_hookfn c (some skb)).log ↔
      (ipv6_hookfn c (some skb)).counters.count_ipv6 > 5) := by
  refine ⟨rfl, ?_⟩
  simp only [ipv6_hookfn, SIGNAL_IPV6, THRESHOLD_IPV6]
  split_ifs with h1 <;> simp [h1]

/-- C4: for every counter state and every argument, null or not, with or
without a header, both hooks return `NF_ACCEPT`. -/
theorem hooks_return_NF_ACCEPT (e : byte_order) (c : m6_counters) (skb : Option sk_buff) :
    (ipv4_hookfn e c skb).verdict = NF_ACCEPT ∧ (ipv6_hookfn c skb).verdict = NF_ACCEPT := by
  constructor
  · rcases skb with _ | ⟨_ | iph, ip6h⟩
    · rfl
    · rfl
    · simp only [ipv4_hookfn, ip_hdr]
      split_ifs <;> rfl
  · unfold ipv6_hookfn
    rcases skb with _ | skb <;> rfl

/-- C5: with a null `skb` (either hook), or with no IPv4 header
(`ipv4_hookfn`), the call returns `NF_ACCEPT`, leaves the four counters as
they were and logs nothing. -/
theorem hooks_null_input_noop (e : byte_order) (c : m6_counters) (ip6h : Option ipv6hdr) :
    ipv4_hookfn e c none = { verdict := NF_ACCEPT, counters := c, log := [] } ∧
    ipv4_hookfn e c (some { iph := none, ip6h := ip6h }) =
      { verdict := NF_ACCEPT, counters := c, log := [] } ∧
    ipv6_hookfn c none = { verdict := NF_ACCEPT, counters := c, log := [] } :=
  ⟨rfl, rfl, rfl⟩

/-! ## Sequences of calls: the counters and the signals -/

theorem first_octet_eq_div (e : byte_order) (iph : iphdr) :
    first_octet e iph = ntohl e (iph.daddr.load e) / 2 ^ 24 % 256 := by
  unfold first_octet
  simp only [Nat.shiftRight_eq_div_pow]
  have h := Nat.and_pow_two_sub_one_eq_mod (ntohl e (iph.daddr.load e) / 2 ^ 24) 8
  norm_num at h
  rw [h]
  simp

/-- The counters after one call, by the label of its packet. -/
theorem nf_hook_counters (e : byte_order) (c : m6_counters) (k : hook_call) :
    (nf_hook e c k).counters =
      match spec_label e k with
      | some .ClassA => { c with count_class_a := (c.count_class_a + 1) % UINT_MOD }
      | some .ClassB => { c with count_class_b := (c.count_class_b + 1) % UINT_MOD }
      | some .ClassC => { c with count_class_c := (c.count_class_c + 1) % UINT_MOD }
      | some .V6 => { c with count_ipv6 := (c.count_ipv6 + 1) % UINT_MOD }
      | _ => c := by
  rcases k with (_ | ⟨_ | iph, ip6h⟩) | (_ | skb)
  · rfl
  · rfl
  · simp only [nf_hook, ipv4_hookfn, spec_label, ip_hdr, Option.map, spec_classify_ipv4,
      ← first_octet_eq_div]
    generalize first_octet e iph = o
    split_ifs <;> rfl
  · rfl
  · rfl

theorem bumped_succ (x n : Nat) : bumped ((x + 1) % UINT_MOD) n = bumped x (n + 1) := by
  unfold bumped UINT_MOD
  norm_num
  split_ifs with h
  · simp [h]
  · omega

theorem run_hooks_counters (e : byte_order) (calls : List hook_call) (c : m6_counters) :
    run_hooks e c calls =
      { count_class_a := bumped c.count_class_a (label_count e .ClassA calls),
        count_class_b := bumped c.count_class_b (label_count e .ClassB calls),
        count_class_c := bumped c.count_class_c (label_count e .ClassC calls),
        count_ipv6 := bumped c.count_ipv6 (label_count e .V6 calls) } := by
  induction calls generalizing c with
  | nil => rfl
  | cons k ks ih =>
    rw [run_hooks, ih, nf_hook_counters]
    simp only [label_count, List.countP_cons]
    rcases h : spec_label e k with _ | l
    · simp [bumped]
    · cases l <;> simp [bumped_succ]

theorem bumped_zero (n : Nat) : bumped 0 n = n % UINT_MOD := by
  unfold bumped
  split_ifs with h
  · simp [h]
  · simp

/-- The signal of a labelled call is in the log exactly when the label's
counter after the call is above the label's threshold. -/
theorem nf_hook_signal (e : byte_order) (c : m6_counters) (k : hook_call) (l : Label)
    (sig : printk_call) (thr : Nat) (hk : spec_label e k = some l)
    (hsig : shaping_signal l = some sig) (hthr : spec_threshold l = some thr) :
    sig ∈ (nf_hook e c k).log ↔
      ∃ n, label_counter (nf_hook e c k).counters l = some n ∧ n > thr := by
  rcases k with (_ | ⟨_ | iph, ip6h⟩) | (_ | skb)
  · simp [spec_label] at hk
  · simp [spec_label, ip_hdr] at hk
  · simp only [spec_label, ip_hdr, Option.map, spec_classify_ipv4, ← first_octet_eq_div] at hk
    simp only [nf_hook, ipv4_hookfn, ip_hdr]
    generalize first_octet e iph = o at hk ⊢
    split_ifs at hk with h1 h2 h3
    all_goals simp only [Option.some.injEq] at hk
    all_goals subst hk
    all_goals simp only [shaping_signal, spec_threshold, Option.some.injEq, reduceCtorEq] at hsig hthr
    all_goals subst hsig hthr
    · rw [if_pos h1]
      simp only [label_counter, SIGNAL_A, THRESHOLD_A]
      split_ifs with h4 <;> simp [h4]
    · rw [if_neg h1, if_pos h2]
      simp only [label_counter, SIGNAL_B, THRESHOLD_B]
      split_ifs with h4 <;> simp [h4]
    · rw [if_neg h1, if_neg h2, if_pos h3]
      simp only [label_counter, SIGNAL_C, THRESHOLD_C]
      split_ifs with h4 <;> simp [h4]
  · simp [spec_label] at hk
  · simp only [spec_label, Option.some.injEq] at hk
    subst hk
    simp only [shaping_signal, spec_threshold, Option.some.injEq] at hsig hthr
    subst hsig hthr
    simp only [nf_hook, ipv6_hookfn, label_counter, SIGNAL_IPV6, THRESHOLD_IPV6]
    split_ifs with h4 <;> simp [h4]

theorem label_count_eq_length (e : byte_order) (l : Label) (calls : List hook_call)
    (h : ∀ q ∈ calls, spec_label e q = some l) : label_count e l calls = calls.length := by
  unfold label_count
  rw [List.countP_eq_length]
  intro q hq
  simp [h q hq]

/-- C6: for every sequence of calls run one after another from the initial
counters, each counter ends as the number of packets of the sequence that carry
its label, modulo `2 ^ 32`. For the first octets 10, 200, 150, 95 the counters
end as 2, 1, 1, 0 and the report is the four lines with these values. -/
theorem run_hooks_counts_every_label (e : byte_order) (calls : List hook_call) :
    (run_hooks e m6_counters.init calls).count_class_a =
      label_count e .ClassA calls % UINT_MOD ∧
    (run_hooks e m6_counters.init calls).count_class_b =
      label_count e .ClassB calls % UINT_MOD ∧
    (run_hooks e m6_counters.init calls).count_class_c =
      label_count e .ClassC calls % UINT_MOD ∧
    (run_hooks e m6_counters.init calls).count_ipv6 =
      label_count e .V6 calls % UINT_MOD ∧
    run_hooks e m6_counters.init
        [.ipv4 (some (ipv4_packet 10 0 0 1)), .ipv4 (some (ipv4_packet 200 0 0 1)),
         .ipv4 (some (ipv4_packet 150 0 0 1)), .ipv4 (some (ipv4_packet 95 0 0 1))] =
      { count_class_a := 2, count_class_b := 1, count_class_c := 1, count_ipv6 := 0 } ∧
    (m6_stats_show
        (run_hooks e m6_counters.init
          [.ipv4 (some (ipv4_packet 10 0 0 1)), .ipv4 (some (ipv4_packet 200 0 0 1)),
           .ipv4 (some (ipv4_packet 150 0 0 1)), .ipv4 (some (ipv4_packet 95 0 0 1))])
        { buf := "" }).2.buf =
      "IPv4 Class A: 2\nIPv4 Class B: 1\nIPv4 Class C: 1\nIPv6 Packets: 0\n" := by
  refine ⟨?_, ?_, ?_, ?_, ?_, ?_⟩
  · rw [run_hooks_counters, ← bumped_zero]; rfl
  · rw [run_hooks_counters, ← bumped_zero]; rfl
  · rw [run_hooks_counters, ← bumped_zero]; rfl
  · rw [run_hooks_counters, ← bumped_zero]; rfl
  · cases e <;> decide
  · cases e <;> rfl

/-- C7: from the initial counters, after calls that all carry one label with a
threshold, a further call of that label emits the label's signal exactly when
its position in the sequence is past the threshold (positions below `2 ^ 32`).
With first octet 50 the calls 1 to 15 emit no class A signal and call 16 does. -/
theorem kth_call_signals_iff_past_threshold (e : byte_order) :
    (∀ (l : Label) (sig : printk_call) (thr : Nat) (pre : List hook_call) (k : hook_call),
      shaping_signal l = some sig → spec_threshold l = some thr →
      (∀ q ∈ pre, spec_label e q = some l) → spec_label e k = some l →
      pre.length + 1 < UINT_MOD →
      (sig ∈ (nf_hook e (run_hooks e m6_counters.init pre) k).log ↔ pre.length + 1 > thr)) ∧
    (∀ j, j < 15 →
      SIGNAL_A ∉ (nf_hook e
        (run_hooks e m6_counters.init (List.replicate j (.ipv4 (some (ipv4_packet 50 0 0 1)))))
        (.ipv4 (some (ipv4_packet 50 0 0 1)))).log) ∧
    SIGNAL_A ∈ (nf_hook e
        (run_hooks e m6_counters.init (List.replicate 15 (.ipv4 (some (ipv4_packet 50 0 0 1)))))
        (.ipv4 (some (ipv4_packet 50 0 0 1)))).log := by
  have main : ∀ (l : Label) (sig : printk_call) (thr : Nat) (pre : List hook_call)
      (k : hook_call), shaping_signal l = some sig → spec_threshold l = some thr →
      (∀ q ∈ pre, spec_label e q = some l) → spec_label e k = some l →
      pre.length + 1 < UINT_MOD →
      (sig ∈ (nf_hook e (run_hooks e m6_counters.init pre) k).log ↔ pre.length + 1 > thr) := by
    intro l sig thr pre k hsig hthr hpre hk hlen
    rw [nf_hook_signal e _ k l sig thr hk hsig hthr, nf_hook_counters, hk, run_hooks_counters]
    have hlen2 : pre.length < UINT_MOD := by omega
    cases l
    all_goals simp only [shaping_signal, reduceCtorEq] at hsig
    all_goals simp [label_counter, label_count_eq_length e _ pre hpre, bumped_zero,
      m6_counters.init, Nat.mod_eq_of_lt hlen, Nat.mod_eq_of_lt hlen2]
  have h50 : spec_label e (.ipv4 (some (ipv4_packet 50 0 0 1))) = some .ClassA := by
    cases e <;> decide
  have hrep : ∀ j, ∀ q ∈ List.replicate j (hook_call.ipv4 (some (ipv4_packet 50 0 0 1))),
      spec_label e q = some .ClassA := by
    intro j q hq
    rw [List.eq_of_mem_replicate hq]
    exact h50
  refine ⟨main, ?_, ?_⟩
  · intro j hj
    rw [main .ClassA SIGNAL_A 15 _ _ rfl rfl (hrep j) h50
      (by simp only [List.length_replicate, UINT_MOD]; omega)]
    simp only [List.length_replicate]
    omega
  · rw [main .ClassA SIGNAL_A 15 _ _ rfl rfl (hrep 15) h50 (by decide)]
    decide

/-- C7, on a little-endian host: the first class B signal is on call 11 (octet
150), the first class C signal on call 8 (octet 200), the first IPv6 signal on
call 6. -/
theorem kth_call_signals_iff_past_threshold_witness :
    (SIGNAL_B ∉ (nf_hook .little_endian
        (run_hooks .little_endian m6_counters.init
          (List.replicate 9 (.ipv4 (some (ipv4_packet 150 0 0 1)))))
        (.ipv4 (some (ipv4_packet 150 0 0 1)))).log ∧
      SIGNAL_B ∈ (nf_hook .little_endian
        (run_hooks .little_endian m6_counters.init
          (List.replicate 10 (.ipv4 (some (ipv4_packet 150 0 0 1)))))
        (.ipv4 (some (ipv4_packet 150 0 0 1)))).log) ∧
    (SIGNAL_C ∉ (nf_hook .little_endian
        (run_hooks .little_endian m6_counters.init
          (List.replicate 6 (.ipv4 (some (ipv4_packet 200 0 0 1)))))
        (.ipv4 (some (ipv4_packet 200 0 0 1)))).log ∧
      SIGNAL_C ∈ (nf_hook .little_endian
        (run_hooks .little_endian m6_counters.init
          (List.replicate 7 (.ipv4 (some (ipv4_packet 200 0 0 1)))))
        (.ipv4 (some (ipv4_packet 200 0 0 1)))).log) ∧
    (SIGNAL_IPV6 ∉ (nf_hook .little_endian
        (run_hooks .little_endian m6_counters.init
          (List.replicate 4 (.ipv6 (some (ipv6_packet 1)))))
        (.ipv6 (some (ipv6_packet 1)))).log ∧
      SIGNAL_IPV6 ∈ (nf_hook .little_endian
        (run_hooks .little_endian m6_counters.init
          (List.replicate 5 (.ipv6 (some (ipv6_packet 1)))))
        (.ipv6 (some (ipv6_packet 1)))).log) :=
  ⟨⟨fun h => absurd
      (((kth_call_signals_iff_past_threshold .little_endian).1 .ClassB SIGNAL_B 10 _ _ rfl rfl
        (by decide) (by decide) (by decide)).mp h) (by decide),
    ((kth_call_signals_iff_past_threshold .little_endian).1 .ClassB SIGNAL_B 10 _ _ rfl rfl
      (by decide) (by decide) (by decide)).mpr (by decide)⟩,
   ⟨fun h => absurd
      (((kth_call_signals_iff_past_threshold .little_endian).1 .ClassC SIGNAL_C 7 _ _ rfl rfl
        (by decide) (by decide) (by decide)).mp h) (by decide),
    ((kth_call_signals_iff_past_threshold .little_endian).1 .ClassC SIGNAL_C 7 _ _ rfl rfl
      (by decide) (by decide) (by decide)).mpr (by decide)⟩,
   ⟨fun h => absurd
      (((kth_call_signals_iff_past_threshold .little_endian).1 .V6 SIGNAL_IPV6 5 _ _ rfl rfl
        (by decide) (by decide) (by decide)).mp h) (by decide),
    ((kth_call_signals_iff_past_threshold .little_endian).1 .V6 SIGNAL_IPV6 5 _ _ rfl rfl
      (by decide) (by decide) (by decide)).mpr (by decide)⟩⟩

/-! ## Destinations outside the three classes -/

/-- C8: for every counter state, an IPv4 packet whose first octet is 0 or in
`224..255` leaves the four counters as they were, so the report rendered after
the call is the report rendered before it, and emits no shaping signal; and any
sequence of such packets leaves the counters and the report as they were. -/
theorem unknown_class_changes_nothing (e : byte_order) (c : m6_counters) :
    (∀ (iph : iphdr) (ip6h : Option ipv6hdr),
      (first_octet e iph = 0 ∨ (224 ≤ first_octet e iph ∧ first_octet e iph ≤ 255)) →
      (ipv4_hookfn e c (some ⟨some iph, ip6h⟩)).counters = c ∧
      (∀ m, m6_stats_show (ipv4_hookfn e c (some ⟨some iph, ip6h⟩)).counters m =
        m6_stats_show c m) ∧
      SIGNAL_A ∉ (ipv4_hookfn e c (some ⟨some iph, ip6h⟩)).log ∧
      SIGNAL_B ∉ (ipv4_hookfn e c (some ⟨some iph, ip6h⟩)).log ∧
      SIGNAL_C ∉ (ipv4_hookfn e c (some ⟨some iph, ip6h⟩)).log ∧
      SIGNAL_IPV6 ∉ (ipv4_hookfn e c (some ⟨some iph, ip6h⟩)).log) ∧
    (∀ calls : List hook_call,
      (∀ q ∈ calls, ∃ iph ip6h, q = .ipv4 (some ⟨some iph, ip6h⟩) ∧
        (first_octet e iph = 0 ∨ (224 ≤ first_octet e iph ∧ first_octet e iph ≤ 255))) →
      run_hooks e c calls = c ∧
      ∀ m, m6_stats_show (run_hooks e c calls) m = m6_stats_show c m) := by
  have one : ∀ (c : m6_counters) (iph : iphdr) (ip6h : Option ipv6hdr),
      (first_octet e iph = 0 ∨ (224 ≤ first_octet e iph ∧ first_octet e iph ≤ 255)) →
      ipv4_hookfn e c (some ⟨some iph, ip6h⟩) =
        { verdict := NF_ACCEPT, counters := c, log := [DEST_MSG e iph, UNKNOWN_MSG] } := by
    intro c iph ip6h h
    simp only [ipv4_hookfn, ip_hdr, DEST_MSG, UNKNOWN_MSG]
    generalize first_octet e iph = o at h ⊢
    rw [if_neg (by omega), if_neg (by omega), if_neg (by omega)]
    rfl
  have all : ∀ calls : List hook_call, ∀ c : m6_counters,
      (∀ q ∈ calls, ∃ iph ip6h, q = .ipv4 (some ⟨some iph, ip6h⟩) ∧
        (first_octet e iph = 0 ∨ (224 ≤ first_octet e iph ∧ first_octet e iph ≤ 255))) →
      run_hooks e c calls = c := by
    intro calls
    induction calls with
    | nil => intro c _; rfl
    | cons k ks ih =>
      intro c h
      obtain ⟨iph, ip6h, rfl, ho⟩ := h k (List.mem_cons_self _ _)
      rw [run_hooks, nf_hook, one c iph ip6h ho]
      exact ih c (fun q hq => h q (List.mem_cons_of_mem _ hq))
  refine ⟨?_, ?_⟩
  · intro iph ip6h h
    rw [one c iph ip6h h]
    refine ⟨rfl, fun _ => rfl, ?_, ?_, ?_, ?_⟩
    all_goals simp [DEST_MSG, UNKNOWN_MSG, SIGNAL_A, SIGNAL_B, SIGNAL_C, SIGNAL_IPV6]
  · intro calls h
    rw [all calls c h]
    exact ⟨rfl, fun _ => rfl⟩

/-- C8, with every counter already above its threshold and the destination
`0.0.0.0`, once and three times in a row (the third to `255.255.255.255`). -/
theorem unknown_class_changes_nothing_witness :
    (first_octet .little_endian ⟨⟨0, 0, 0, 0⟩⟩ = 0 ∨
      (224 ≤ first_octet .little_endian ⟨⟨0, 0, 0, 0⟩⟩ ∧
        first_octet .little_endian ⟨⟨0, 0, 0, 0⟩⟩ ≤ 255)) ∧
    (ipv4_hookfn .little_endian ⟨16, 11, 8, 6⟩ (some (ipv4_packet 0 0 0 0))).counters =
      ⟨16, 11, 8, 6⟩ ∧
    SIGNAL_A ∉ (ipv4_hookfn .little_endian ⟨16, 11, 8, 6⟩ (some (ipv4_packet 0 0 0 0))).log ∧
    run_hooks .little_endian ⟨16, 11, 8, 6⟩
      [.ipv4 (some (ipv4_packet 0 0 0 0)), .ipv4 (some (ipv4_packet 240 1 2 3)),
       .ipv4 (some (ipv4_packet 255 255 255 255))] = ⟨16, 11, 8, 6⟩ :=
  ⟨by decide,
   ((unknown_class_changes_nothing .little_endian ⟨16, 11, 8, 6⟩).1 ⟨⟨0, 0, 0, 0⟩⟩ none
      (by decide)).1,
   ((unknown_class_changes_nothing .little_endian ⟨16, 11, 8, 6⟩).1 ⟨⟨0, 0, 0, 0⟩⟩ none
      (by decide)).2.2.1,
   ((unknown_class_changes_nothing .little_endian ⟨16, 11, 8, 6⟩).2
      [.ipv4 (some (ipv4_packet 0 0 0 0)), .ipv4 (some (ipv4_packet 240 1 2 3)),
       .ipv4 (some (ipv4_packet 255 255 255 255))]
      (by
        intro q hq
        simp only [List.mem_cons, List.mem_singleton, List.not_mem_nil, or_false] at hq
        rcases hq with rfl | rfl | rfl
        · exact ⟨⟨⟨0, 0, 0, 0⟩⟩, none, rfl, by decide⟩
        · exact ⟨⟨⟨240, 1, 2, 3⟩⟩, none, rfl, by decide⟩
        · exact ⟨⟨⟨255, 255, 255, 255⟩⟩, none, rfl, by decide⟩)).1⟩

/-- C9 as stated fails: the packet to `0.0.0.0` is logged as unknown class,
yet the counters after the call are the counters before it, so nothing that
the counter state holds has gone up by one. -/
theorem unknown_class_counter_counterexample :
    UNKNOWN_MSG ∈
      (ipv4_hookfn .little_endian m6_counters.init (some (ipv4_packet 0 0 0 0))).log ∧
    (ipv4_hookfn .little_endian m6_counters.init (some (ipv4_packet 0 0 0 0))).counters =
      m6_counters.init ∧
    ¬ ∃ f : m6_counters → Nat,
      f (ipv4_hookfn .little_endian m6_counters.init (some (ipv4_packet 0 0 0 0))).counters =
        f m6_counters.init + 1 := by
  refine ⟨by decide, by decide, ?_⟩
  rintro ⟨f, hf⟩
  have h : (ipv4_hookfn .little_endian m6_counters.init
      (some (ipv4_packet 0 0 0 0))).counters = m6_counters.init := by decide
  rw [h] at hf
  omega

/-- C9, amended: an IPv4 packet whose first octet is 0 or in `224..255` is
only logged, with the destination message and the unknown-class message; the
verdict is `NF_ACCEPT` and the counter state, which holds the four counters of
class A, class B, class C and IPv6 and no other, is left as it was. -/
theorem unknown_class_logged_not_counted (e : byte_order) (c : m6_counters)
    (iph : iphdr) (ip6h : Option ipv6hdr)
    (h : first_octet e iph = 0 ∨ (224 ≤ first_octet e iph ∧ first_octet e iph ≤ 255)) :
    ipv4_hookfn e c (some ⟨some iph, ip6h⟩) =
      { verdict := NF_ACCEPT, counters := c, log := [DEST_MSG e iph, UNKNOWN_MSG] } ∧
    label_counter (ipv4_hookfn e c (some ⟨some iph, ip6h⟩)).counters .ClassUnknownV4 = none := by
  refine ⟨?_, rfl⟩
  simp only [ipv4_hookfn, ip_hdr, DEST_MSG, UNKNOWN_MSG]
  generalize first_octet e iph = o at h ⊢
  rw [if_neg (by omega), if_neg (by omega), if_neg (by omega)]
  rfl

/-- C9 amended, at the destination `224.0.0.1` with counters 3, 2, 1, 0. -/
theorem unknown_class_logged_not_counted_witness :
    (first_octet .big_endian ⟨⟨224, 0, 0, 1⟩⟩ = 0 ∨
      (224 ≤ first_octet .big_endian ⟨⟨224, 0, 0, 1⟩⟩ ∧
        first_octet .big_endian ⟨⟨224, 0, 0, 1⟩⟩ ≤ 255)) ∧
    (ipv4_hookfn .big_endian ⟨3, 2, 1, 0⟩ (some (ipv4_packet 224 0 0 1))).counters =
      ⟨3, 2, 1, 0⟩ :=
  ⟨by decide,
   congrArg hook_result.counters
     (unknown_class_logged_not_counted .big_endian ⟨3, 2, 1, 0⟩ ⟨⟨224, 0, 0, 1⟩⟩ none
       (by decide)).1⟩

/-! ## The report -/

theorem toDigitsCore_eq_dec_digits_rev (f : Nat) :
    ∀ (n g : Nat) (acc : List Char), n < 10 ^ (f + 1) → n < g →
      Nat.toDigitsCore 10 g n acc = (dec_digits_rev (f + 1) n).reverse ++ acc := by
  induction f with
  | zero =>
    intro n g acc hn hg
    obtain ⟨g, rfl⟩ : ∃ g', g = g' + 1 := ⟨g - 1, by omega⟩
    have h0 : n / 10 = 0 := by omega
    simp [Nat.toDigitsCore, dec_digits_rev, h0]
  | succ f ih =>
    intro n g acc hn hg
    obtain ⟨g, rfl⟩ : ∃ g', g = g' + 1 := ⟨g - 1, by omega⟩
    by_cases h0 : n / 10 = 0
    · rw [dec_digits_rev]
      simp [Nat.toDigitsCore, h0]
    · rw [dec_digits_rev]
      simp only [Nat.toDigitsCore, h0, if_false]
      rw [ih (n / 10) g _ (by rw [pow_succ] at hn; omega) (by omega)]
      simp

theorem fmt_u_eq_repr (n : Nat) (h : n < UINT_MOD) : fmt_u n = (toString n).data := by
  have h1 : n % UINT_MOD = n := Nat.mod_eq_of_lt h
  have h2 : n < 10 ^ (9 + 1) := by unfold UINT_MOD at h; omega
  unfold fmt_u
  rw [h1]
  show _ = (Nat.repr n).data
  unfold Nat.repr Nat.toDigits
  rw [toDigitsCore_eq_dec_digits_rev 9 n (n + 1) [] h2 (by omega)]
  simp [List.asString]

theorem dec_digits_rev_no_newline (f n : Nat) : '\n' ∉ dec_digits_rev f n := by
  have hd : ∀ d, d < 10 → Nat.digitChar d ≠ '\n' := by decide
  induction f generalizing n with
  | zero => simp [dec_digits_rev]
  | succ f ih =>
    rw [dec_digits_rev]
    split_ifs
    · simpa using (hd (n % 10) (Nat.mod_lt _ (by decide))).symm
    · simp only [List.mem_cons, not_or]
      exact ⟨(hd (n % 10) (Nat.mod_lt _ (by decide))).symm, ih _⟩

theorem fmt_u_count_newline (n : Nat) : (fmt_u n).count '\n' = 0 := by
  rw [List.count_eq_zero]
  unfold fmt_u
  rw [List.mem_reverse]
  exact dec_digits_rev_no_newline _ _

/-- C10: for counters `a`, `b`, `c`, `v` that are values of `unsigned int`,
`m6_stats_show` returns 0 and appends to the buffer exactly the four lines
"IPv4 Class A: a", "IPv4 Class B: b", "IPv4 Class C: c", "IPv6 Packets: v", in
this order, each value in decimal and each line ended by a newline; the text
has four newlines, so there is no further line. -/
theorem m6_stats_show_four_lines (c : m6_counters) (m : seq_file) (h : c.wf) :
    m6_stats_show c m =
      (0, { buf := m.buf ++
        spec_report c.count_class_a c.count_class_b c.count_class_c c.count_ipv6 }) ∧
    (spec_report c.count_class_a c.count_class_b c.count_class_c c.count_ipv6).data.count
      '\n' = 4 := by
  obtain ⟨ha, hb, hc, hv⟩ := h
  constructor
  · simp only [m6_stats_show, seq_printf, spec_report]
    congr 2
    apply String.ext
    simp [vsnprintf, fmt_u_eq_repr, ha, hb, hc, hv]
  · simp only [spec_report]
    simp [← fmt_u_eq_repr, ha, hb, hc, hv, List.count_append, fmt_u_count_newline]

/-- C10, at the counters 4294967295, 16, 0, 123 and an empty buffer. -/
theorem m6_stats_show_four_lines_witness :
    m6_counters.wf ⟨4294967295, 16, 0, 123⟩ ∧
    m6_stats_show ⟨4294967295, 16, 0, 123⟩ { buf := "" } =
      (0, { buf :=
        "IPv4 Class A: 4294967295\nIPv4 Class B: 16\nIPv4 Class C: 0\nIPv6 Packets: 123\n" }) :=
  ⟨by decide,
   (m6_stats_show_four_lines ⟨4294967295, 16, 0, 123⟩ { buf := "" } (by decide)).1⟩

/-! ## Byte order -/

theorem swab32_top_octet (x : Nat) : swab32 x / 2 ^ 24 = x % 256 := by
  unfold swab32
  have h1 : x &&& 0x000000ff = x % 256 := by
    have h := Nat.and_pow_two_sub_one_eq_mod x 8
    norm_num at h
    exact h
  have h2 : (x &&& 0x0000ff00) <<< 8 < 2 ^ 24 := by
    have : x &&& 0x0000ff00 ≤ 0x0000ff00 := Nat.and_le_right
    rw [Nat.shiftLeft_eq]
    omega
  have h3 : (x &&& 0x00ff0000) >>> 8 < 2 ^ 24 := by
    have : x &&& 0x00ff0000 ≤ 0x00ff0000 := Nat.and_le_right
    rw [Nat.shiftRight_eq_div_pow]
    omega
  have h4 : (x &&& 0xff000000) >>> 24 < 2 ^ 24 := by
    have : x &&& 0xff000000 ≤ 0xff000000 := Nat.and_le_right
    rw [Nat.shiftRight_eq_div_pow]
    omega
  have hr : ((x &&& 0x0000ff00) <<< 8 ||| (x &&& 0x00ff0000) >>> 8 |||
      (x &&& 0xff000000) >>> 24) < 2 ^ 24 :=
    Nat.or_lt_two_pow (Nat.or_lt_two_pow h2 h3) h4
  rw [Nat.lor_assoc, Nat.lor_assoc, ← Nat.lor_assoc ((x &&& 0x0000ff00) <<< 8), h1,
    Nat.shiftLeft_eq, Nat.mul_comm, ← Nat.mul_add_lt_is_or hr]
  omega

theorem first_octet_eq_b0 (e : byte_order) (iph : iphdr) :
    first_octet e iph = iph.daddr.b0 % 256 := by
  rw [first_octet_eq_div]
  cases e
  · simp only [ntohl, swab32_top_octet, be32.load]
    omega
  · simp only [ntohl, be32.load]
    omega

/-! ## Reading the report -/

/-- C11: for every counter state and buffer, a run of `m6_stats_show` leaves
the four counters as they were; a second run right after the first, on the
same buffer, returns the same value and the same text; and after any number of
runs in a row the counters, and so the text of a further run, are still the
same. -/
theorem m6_stats_show_read_only (e : byte_order) (c : m6_counters) (m : seq_file)
    (ms : List seq_file) :
    (m6_stats_show_step c m).1 = c ∧
    (m6_stats_show_step (m6_stats_show_step c m).1 m).2 = (m6_stats_show_step c m).2 ∧
    ms.foldl (fun c1 m1 => m6_entry.counters_after e c1 (.stats_show m1)) c = c ∧
    m6_stats_show
        (ms.foldl (fun c1 m1 => m6_entry.counters_after e c1 (.stats_show m1)) c) m =
      m6_stats_show c m := by
  have h : ms.foldl (fun c1 m1 => m6_entry.counters_after e c1 (.stats_show m1)) c = c := by
    induction ms with
    | nil => rfl
    | cons m1 ms ih => simp [List.foldl, m6_entry.counters_after, m6_stats_show_step]
  exact ⟨rfl, rfl, h, by rw [h]⟩

/-! ## Wrap-around -/

/-- C12 as stated fails: with `count_class_a` at `2 ^ 32 - 1`, a value of
`unsigned int`, a class A packet leaves it at 0, below its value before. -/
theorem counters_monotone_counterexample :
    m6_counters.wf ⟨4294967295, 0, 0, 0⟩ ∧
    ¬ ((ipv4_hookfn .little_endian ⟨4294967295, 0, 0, 0⟩
        (some (ipv4_packet 10 0 0 1))).counters.count_class_a ≥ 4294967295) := by
  decide

/-- C12, amended: for every counter state of `unsigned int` values and every
entry into the module (a call of `ipv4_hookfn`, of `ipv6_hookfn` or of
`m6_stats_show`), each counter after the entry is at least its value before,
except that a counter which held `2 ^ 32 - 1` may be 0. -/
theorem counters_monotone_up_to_wrap (e : byte_order) (c : m6_counters) (k : m6_entry)
    (h : c.wf) :
    (c.count_class_a ≤ (k.counters_after e c).count_class_a ∨
      (c.count_class_a = UINT_MOD - 1 ∧ (k.counters_after e c).count_class_a = 0)) ∧
    (c.count_class_b ≤ (k.counters_after e c).count_class_b ∨
      (c.count_class_b = UINT_MOD - 1 ∧ (k.counters_after e c).count_class_b = 0)) ∧
    (c.count_class_c ≤ (k.counters_after e c).count_class_c ∨
      (c.count_class_c = UINT_MOD - 1 ∧ (k.counters_after e c).count_class_c = 0)) ∧
    (c.count_ipv6 ≤ (k.counters_after e c).count_ipv6 ∨
      (c.count_ipv6 = UINT_MOD - 1 ∧ (k.counters_after e c).count_ipv6 = 0)) := by
  obtain ⟨ha, hb, hc, hv⟩ := h
  unfold UINT_MOD at ha hb hc hv
  rcases k with k | m
  · simp only [m6_entry.counters_after, nf_hook_counters]
    rcases spec_label e k with _ | l
    · simp
    · cases l <;> simp only [UINT_MOD] <;> refine ⟨?_, ?_, ?_, ?_⟩ <;> omega
  · simp [m6_entry.counters_after, m6_stats_show_step]

/-- C12 amended, at the counters 15, 10, 7, 5 and a class B packet. -/
theorem counters_monotone_up_to_wrap_witness :
    m6_counters.wf ⟨15, 10, 7, 5⟩ ∧
    (10 ≤ (m6_entry.counters_after .little_endian ⟨15, 10, 7, 5⟩
        (.hook (.ipv4 (some (ipv4_packet 150 0 0 1))))).count_class_b ∨
      ((10 : Nat) = UINT_MOD - 1 ∧
        (m6_entry.counters_after .little_endian ⟨15, 10, 7, 5⟩
          (.hook (.ipv4 (some (ipv4_packet 150 0 0 1))))).count_class_b = 0)) :=
  ⟨by decide,
   (counters_monotone_up_to_wrap .little_endian ⟨15, 10, 7, 5⟩
      (.hook (.ipv4 (some (ipv4_packet 150 0 0 1)))) (by decide)).2.1⟩

/-- C13: when the counter of the packet's label holds `2 ^ 32 - 1`, the call
sets that counter to 0, leaves the other three as they were, returns
`NF_ACCEPT` and emits no shaping signal; for class A, B and C through
`ipv4_hookfn` and for IPv6 through `ipv6_hookfn`. -/
theorem counter_wraps_silently (e : byte_order) (c : m6_counters)
    (iph : iphdr) (ip6h : Option ipv6hdr) (skb6 : sk_buff) :
    (1 ≤ first_octet e iph ∧ first_octet e iph ≤ 127 → c.count_class_a = UINT_MOD - 1 →
      (ipv4_hookfn e c (some ⟨some iph, ip6h⟩)).counters = { c with count_class_a := 0 } ∧
      (ipv4_hookfn e c (some ⟨some iph, ip6h⟩)).verdict = NF_ACCEPT ∧
      ∀ s ∈ [SIGNAL_A, SIGNAL_B, SIGNAL_C, SIGNAL_IPV6],
        s ∉ (ipv4_hookfn e c (some ⟨some iph, ip6h⟩)).log) ∧
    (128 ≤ first_octet e iph ∧ first_octet e iph ≤ 191 → c.count_class_b = UINT_MOD - 1 →
      (ipv4_hookfn e c (some ⟨some iph, ip6h⟩)).counters = { c with count_class_b := 0 } ∧
      (ipv4_hookfn e c (some ⟨some iph, ip6h⟩)).verdict = NF_ACCEPT ∧
      ∀ s ∈ [SIGNAL_A, SIGNAL_B, SIGNAL_C, SIGNAL_IPV6],
        s ∉ (ipv4_hookfn e c (some ⟨some iph, ip6h⟩)).log) ∧
    (192 ≤ first_octet e iph ∧ first_octet e iph ≤ 223 → c.count_class_c = UINT_MOD - 1 →
      (ipv4_hookfn e c (some ⟨some iph, ip6h⟩)).counters = { c with count_class_c := 0 } ∧
      (ipv4_hookfn e c (some ⟨some iph, ip6h⟩)).verdict = NF_ACCEPT ∧
      ∀ s ∈ [SIGNAL_A, SIGNAL_B, SIGNAL_C, SIGNAL_IPV6],
        s ∉ (ipv4_hookfn e c (some ⟨some iph, ip6h⟩)).log) ∧
    (c.count_ipv6 = UINT_MOD - 1 →
      (ipv6_hookfn c (some skb6)).counters = { c with count_ipv6 := 0 } ∧
      (ipv6_hookfn c (some skb6)).verdict = NF_ACCEPT ∧
      ∀ s ∈ [SIGNAL_A, SIGNAL_B, SIGNAL_C, SIGNAL_IPV6],
        s ∉ (ipv6_hookfn c (some skb6)).log) := by
  simp only [ipv4_hookfn, ipv6_hookfn, ip_hdr, SIGNAL_A, SIGNAL_B, SIGNAL_C, SIGNAL_IPV6,
    THRESHOLD_A, THRESHOLD_B, THRESHOLD_C, THRESHOLD_IPV6, UINT_MOD]
  generalize first_octet e iph = o
  refine ⟨?_, ?_, ?_, ?_⟩
  · intro h hc
    rw [if_pos (by omega), hc]
    simp
  · intro h hc
    rw [if_neg (by omega), if_pos (by omega), hc]
    simp
  · intro h hc
    rw [if_neg (by omega), if_neg (by omega), if_pos (by omega), hc]
    simp
  · intro hc
    rw [hc]
    simp

/-- C13, at `count_class_a = 4294967295` and the destination `10.0.0.1`. -/
theorem counter_wraps_silently_witness :
    (1 ≤ first_octet .little_endian ⟨⟨10, 0, 0, 1⟩⟩ ∧
      first_octet .little_endian ⟨⟨10, 0, 0, 1⟩⟩ ≤ 127) ∧
    (ipv4_hookfn .little_endian ⟨4294967295, 20, 3, 9⟩ (some (ipv4_packet 10 0 0 1))).counters =
      ⟨0, 20, 3, 9⟩ ∧
    SIGNAL_A ∉
      (ipv4_hookfn .little_endian ⟨4294967295, 20, 3, 9⟩ (some (ipv4_packet 10 0 0 1))).log :=
  ⟨by decide,
   ((counter_wraps_silently .little_endian ⟨4294967295, 20, 3, 9⟩ ⟨⟨10, 0, 0, 1⟩⟩ none
      (ipv6_packet 0)).1 (by decide) (by decide)).1,
   ((counter_wraps_silently .little_endian ⟨4294967295, 20, 3, 9⟩ ⟨⟨10, 0, 0, 1⟩⟩ none
      (ipv6_packet 0)).1 (by decide) (by decide)).2.2 SIGNAL_A (by decide)⟩

/-! ## The classified octet -/

/-- C15: for every destination `a.b.c.d` (bytes below 256) held in the header
in network byte order, and for either byte order of the host, the octet that
`ipv4_hookfn` classifies is `a`, the bits 31 to 24 of the host-order address;
and a destination `a.b1.c1.d1` with the same leading octet gives the same
counters, the same verdict and the same messages after the destination
message, so the same shaping signals. -/
theorem first_octet_is_leading_octet (e : byte_order) (a b c d : Nat) (ha : a < 256) :
    first_octet e ⟨⟨a, b, c, d⟩⟩ = a ∧
    ntohl e (be32.load e ⟨a, b, c, d⟩) / 2 ^ 24 % 256 = a ∧
    ∀ (cs : m6_counters) (b1 c1 d1 : Nat) (ip6h ip6h1 : Option ipv6hdr),
      (ipv4_hookfn e cs (some ⟨some ⟨⟨a, b, c, d⟩⟩, ip6h⟩)).counters =
        (ipv4_hookfn e cs (some ⟨some ⟨⟨a, b1, c1, d1⟩⟩, ip6h1⟩)).counters ∧
      (ipv4_hookfn e cs (some ⟨some ⟨⟨a, b, c, d⟩⟩, ip6h⟩)).verdict =
        (ipv4_hookfn e cs (some ⟨some ⟨⟨a, b1, c1, d1⟩⟩, ip6h1⟩)).verdict ∧
      (ipv4_hookfn e cs (some ⟨some ⟨⟨a, b, c, d⟩⟩, ip6h⟩)).log.tail =
        (ipv4_hookfn e cs (some ⟨some ⟨⟨a, b1, c1, d1⟩⟩, ip6h1⟩)).log.tail ∧
      ∀ s ∈ [SIGNAL_A, SIGNAL_B, SIGNAL_C, SIGNAL_IPV6],
        (s ∈ (ipv4_hookfn e cs (some ⟨some ⟨⟨a, b, c, d⟩⟩, ip6h⟩)).log ↔
          s ∈ (ipv4_hookfn e cs (some ⟨some ⟨⟨a, b1, c1, d1⟩⟩, ip6h1⟩)).log) := by
  have h0 : ∀ b c d, first_octet e ⟨⟨a, b, c, d⟩⟩ = a := by
    intro b c d
    rw [first_octet_eq_b0]
    exact Nat.mod_eq_of_lt ha
  refine ⟨h0 b c d, ?_, ?_⟩
  · rw [← first_octet_eq_div e ⟨⟨a, b, c, d⟩⟩]
    exact h0 b c d
  · intro cs b1 c1 d1 ip6h ip6h1
    simp only [ipv4_hookfn, ip_hdr, h0, SIGNAL_A, SIGNAL_B, SIGNAL_C, SIGNAL_IPV6]
    refine ⟨?_, ?_, ?_, ?_⟩
    all_goals split_ifs
    all_goals simp

/-- C15, at the destination `10.1.2.3` on a little-endian and on a big-endian
host, and against `10.200.0.9`. -/
theorem first_octet_is_leading_octet_witness :
    (10 : Nat) < 256 ∧
    first_octet .little_endian ⟨⟨10, 1, 2, 3⟩⟩ = 10 ∧
    first_octet .big_endian ⟨⟨10, 1, 2, 3⟩⟩ = 10 ∧
    (ipv4_hookfn .little_endian ⟨15, 0, 0, 0⟩ (some (ipv4_packet 10 1 2 3))).counters =
      (ipv4_hookfn .little_endian ⟨15, 0, 0, 0⟩ (some (ipv4_packet 10 200 0 9))).counters :=
  ⟨by decide,
   (first_octet_is_leading_octet .little_endian 10 1 2 3 (by decide)).1,
   (first_octet_is_leading_octet .big_endian 10 1 2 3 (by decide)).1,
   ((first_octet_is_leading_octet .little_endian 10 1 2 3 (by decide)).2.2
      ⟨15, 0, 0, 0⟩ 200 0 9 none none).1⟩

/-! ## Order of arrival -/

/-- C16: for every counter state, two sequences of calls that are permutations
of each other, run one call after another from that state, end with the same
four counters. -/
theorem run_hooks_order_independent (e : byte_order) (c : m6_counters)
    (calls1 calls2 : List hook_call) (h : calls1.Perm calls2) :
    run_hooks e c calls1 = run_hooks e c calls2 := by
  rw [run_hooks_counters, run_hooks_counters]
  simp only [label_count, h.countP_eq]

/-- C16, at the packets to `10.0.0.1`, `200.0.0.1` and an IPv6 packet, in two
orders, from the counters 4294967295, 0, 7, 5. -/
theorem run_hooks_order_independent_witness :
    List.Perm
      [hook_call.ipv4 (some (ipv4_packet 10 0 0 1)), .ipv4 (some (ipv4_packet 200 0 0 1)),
        .ipv6 (some (ipv6_packet 1))]
      [hook_call.ipv6 (some (ipv6_packet 1)), .ipv4 (some (ipv4_packet 10 0 0 1)),
        .ipv4 (some (ipv4_packet 200 0 0 1))] ∧
    run_hooks .little_endian ⟨4294967295, 0, 7, 5⟩
      [.ipv4 (some (ipv4_packet 10 0 0 1)), .ipv4 (some (ipv4_packet 200 0 0 1)),
        .ipv6 (some (ipv6_packet 1))] =
    run_hooks .little_endian ⟨4294967295, 0, 7, 5⟩
      [.ipv6 (some (ipv6_packet 1)), .ipv4 (some (ipv4_packet 10 0 0 1)),
        .ipv4 (some (ipv4_packet 200 0 0 1))] :=
  ⟨by decide,
   run_hooks_order_independent .little_endian ⟨4294967295, 0, 7, 5⟩ _ _ (by decide)⟩

/-! ## The report determines the counters -/

theorem dec_value_dec_digits_rev (f : Nat) :
    ∀ n, n < 10 ^ f → dec_value (dec_digits_rev f n) = n := by
  have hd : ∀ d, d < 10 → (Nat.digitChar d).toNat - 48 = d := by decide
  induction f with
  | zero =>
    intro n hn
    have h0 : n = 0 := by simpa using hn
    subst h0
    rfl
  | succ f ih =>
    intro n hn
    rw [dec_digits_rev]
    split_ifs with h
    · simp only [dec_value, hd (n % 10) (Nat.mod_lt _ (by decide))]
      omega
    · simp only [dec_value, hd (n % 10) (Nat.mod_lt _ (by decide))]
      rw [ih (n / 10) (by rw [pow_succ] at hn; omega)]
      omega

theorem fmt_u_injective (a b : Nat) (ha : a < UINT_MOD) (hb : b < UINT_MOD)
    (h : fmt_u a = fmt_u b) : a = b := by
  unfold fmt_u at h
  rw [Nat.mod_eq_of_lt ha, Nat.mod_eq_of_lt hb] at h
  have h1 := congrArg dec_value (List.reverse_injective h)
  unfold UINT_MOD at ha hb
  rwa [dec_value_dec_digits_rev 10 a (by omega), dec_value_dec_digits_rev 10 b (by omega)] at h1

theorem fmt_u_no_newline (n : Nat) : '\n' ∉ fmt_u n := by
  unfold fmt_u
  rw [List.mem_reverse]
  exact dec_digits_rev_no_newline _ _

/-- Two texts that each end their first field at the first separator agree on
the field and on the rest. -/
theorem split_at_separator {α : Type} (x : α) :
    ∀ (l1 l2 r1 r2 : List α), x ∉ l1 → x ∉ l2 → l1 ++ x :: r1 = l2 ++ x :: r2 →
      l1 = l2 ∧ r1 = r2 := by
  intro l1
  induction l1 with
  | nil =>
    intro l2 r1 r2 _ h2 h
    cases l2 with
    | nil => simpa using h
    | cons y l2 =>
      simp only [List.nil_append, List.cons_append, List.cons.injEq] at h
      exact absurd (by rw [h.1]; exact List.mem_cons_self _ _) h2
  | cons y l1 ih =>
    intro l2 r1 r2 h1 h2 h
    cases l2 with
    | nil =>
      simp only [List.nil_append, List.cons_append, List.cons.injEq] at h
      exact absurd (by rw [← h.1]; exact List.mem_cons_self _ _) h1
    | cons z l2 =>
      simp only [List.cons_append, List.cons.injEq] at h
      obtain ⟨h3, h4⟩ := ih l2 r1 r2 (fun hm => h1 (List.mem_cons_of_mem _ hm))
        (fun hm => h2 (List.mem_cons_of_mem _ hm)) h.2
      exact ⟨by rw [h.1, h3], h4⟩

theorem m6_stats_show_data (c : m6_counters) (m : seq_file) :
    (m6_stats_show c m).2.buf.data =
      m.buf.data ++ ("IPv4 Class A: ".data ++ (fmt_u c.count_class_a ++ '\n' ::
        ("IPv4 Class B: ".data ++ (fmt_u c.count_class_b ++ '\n' ::
          ("IPv4 Class C: ".data ++ (fmt_u c.count_class_c ++ '\n' ::
            ("IPv6 Packets: ".data ++ (fmt_u c.count_ipv6 ++ ['\n']))))))))  := by
  simp [m6_stats_show, seq_printf, vsnprintf]

/-- C17: for two counter states of `unsigned int` values, if `m6_stats_show`
renders the same text for both, on the same buffer, then the two states have
the same `count_class_a`, `count_class_b`, `count_class_c` and `count_ipv6`. -/
theorem m6_stats_show_injective (c1 c2 : m6_counters) (m : seq_file)
    (h1 : c1.wf) (h2 : c2.wf) (h : (m6_stats_show c1 m).2 = (m6_stats_show c2 m).2) :
    c1.count_class_a = c2.count_class_a ∧ c1.count_class_b = c2.count_class_b ∧
    c1.count_class_c = c2.count_class_c ∧ c1.count_ipv6 = c2.count_ipv6 := by
  obtain ⟨ha1, hb1, hc1, hv1⟩ := h1
  obtain ⟨ha2, hb2, hc2, hv2⟩ := h2
  have hd := congrArg (fun s : seq_file => s.buf.data) h
  simp only [m6_stats_show_data] at hd
  have ka := List.append_cancel_left (List.append_cancel_left hd)
  obtain ⟨ea, ra⟩ := split_at_separator '\n' _ _ _ _ (fmt_u_no_newline _) (fmt_u_no_newline _) ka
  obtain ⟨eb, rb⟩ := split_at_separator '\n' _ _ _ _ (fmt_u_no_newline _) (fmt_u_no_newline _)
    (List.append_cancel_left ra)
  obtain ⟨ec, rc⟩ := split_at_separator '\n' _ _ _ _ (fmt_u_no_newline _) (fmt_u_no_newline _)
    (List.append_cancel_left rb)
  obtain ⟨ev, _⟩ := split_at_separator '\n' _ _ _ _ (fmt_u_no_newline _) (fmt_u_no_newline _)
    (List.append_cancel_left rc)
  exact ⟨fmt_u_injective _ _ ha1 ha2 ea, fmt_u_injective _ _ hb1 hb2 eb,
    fmt_u_injective _ _ hc1 hc2 ec, fmt_u_injective _ _ hv1 hv2 ev⟩

/-- C17, at the counters 12, 3, 0, 7, and against 1, 23, 0, 7, whose report
differs. -/
theorem m6_stats_show_injective_witness :
    m6_counters.wf ⟨12, 3, 0, 7⟩ ∧ m6_counters.wf ⟨1, 23, 0, 7⟩ ∧
    ((m6_stats_show ⟨12, 3, 0, 7⟩ { buf := "" }).2 =
        (m6_stats_show ⟨10 + 2, 3, 0, 7⟩ { buf := "" }).2 ∧
      (12 : Nat) = 10 + 2) ∧
    (m6_stats_show ⟨12, 3, 0, 7⟩ { buf := "" }).2 ≠
      (m6_stats_show ⟨1, 23, 0, 7⟩ { buf := "" }).2 :=
  ⟨by decide, by decide,
   ⟨rfl, (m6_stats_show_injective ⟨12, 3, 0, 7⟩ ⟨10 + 2, 3, 0, 7⟩ { buf := "" }
      (by decide) (by decide) rfl).1⟩,
   fun h => absurd
     (m6_stats_show_injective ⟨12, 3, 0, 7⟩ ⟨1, 23, 0, 7⟩ { buf := "" }
       (by decide) (by decide) h).1 (by decide)⟩

/-! ## Increments that overlap -/

/-- C14 as stated fails: two class A calls run on two CPUs from the initial
counters; both CPUs read `count_class_a`, then both write: both calls are
over and `count_class_a` is 1, not 2. -/
theorem concurrent_increment_counterexample :
    smp_done (smp_run .little_endian
      [.ipv4 (some (ipv4_packet 10 0 0 1)), .ipv4 (some (ipv4_packet 10 0 0 1))]
      (smp_init m6_counters.init
        [.ipv4 (some (ipv4_packet 10 0 0 1)), .ipv4 (some (ipv4_packet 10 0 0 1))])
      [0, 1, 0, 1]) ∧
    (smp_run .little_endian
      [.ipv4 (some (ipv4_packet 10 0 0 1)), .ipv4 (some (ipv4_packet 10 0 0 1))]
      (smp_init m6_counters.init
        [.ipv4 (some (ipv4_packet 10 0 0 1)), .ipv4 (some (ipv4_packet 10 0 0 1))])
      [0, 1, 0, 1]).mem.count_class_a = 1 ∧
    ¬ ((smp_run .little_endian
      [.ipv4 (some (ipv4_packet 10 0 0 1)), .ipv4 (some (ipv4_packet 10 0 0 1))]
      (smp_init m6_counters.init
        [.ipv4 (some (ipv4_packet 10 0 0 1)), .ipv4 (some (ipv4_packet 10 0 0 1))])
      [0, 1, 0, 1]).mem.count_class_a = m6_counters.init.count_class_a + 2) := by
  decide

theorem nf_hook_counters_eq_store (e : byte_order) (c : m6_counters) (k : hook_call) :
    (nf_hook e c k).counters =
      match incremented_counter e k with
      | some x => x.store c ((x.load c + 1) % UINT_MOD)
      | none => c := by
  rcases k with (_ | ⟨_ | iph, ip6h⟩) | (_ | skb)
  · rfl
  · rfl
  · simp only [nf_hook, ipv4_hookfn, incremented_counter, ip_hdr]
    generalize first_octet e iph = o
    split_ifs <;> rfl
  · rfl
  · rfl

/-- The read and the write of one call, with no step of another CPU between,
do what the hook does to the counters. -/
theorem smp_step_twice (e : byte_order) (calls : List hook_call) (s : smp_state) (i : Nat)
    (k : hook_call) (hk : calls[i]? = some k) (hpc : s.pcs[i]? = some .before) :
    smp_step e calls (smp_step e calls s i) i =
      { mem := (nf_hook e s.mem k).counters, pcs := s.pcs.set i .done } := by
  have hi : i < s.pcs.length := by
    rcases Nat.lt_or_ge i s.pcs.length with h | h
    · exact h
    · rw [List.getElem?_eq_none h] at hpc
      cases hpc
  rw [nf_hook_counters_eq_store]
  rcases hx : incremented_counter e k with _ | x
  · have h1 : smp_step e calls s i = { s with pcs := s.pcs.set i .done } := by
      simp [smp_step, hk, hpc, hx]
    rw [h1]
    simp [smp_step, hk, hx, List.getElem?_set_eq_of_lt, hi]
  · have h1 : smp_step e calls s i = { s with pcs := s.pcs.set i (.loaded (x.load s.mem)) } := by
      simp [smp_step, hk, hpc, hx]
    rw [h1]
    simp [smp_step, hk, hx, List.getElem?_set_eq_of_lt, hi]

theorem filterMap_range_getElem? {α : Type} (l : List α) :
    (List.range l.length).filterMap (fun i => l[i]?) = l := by
  induction l using List.reverseRecOn with
  | nil => rfl
  | append_singleton l a ih =>
    rw [List.length_append, List.length_singleton, List.range_succ, List.filterMap_append]
    have h1 : (List.range l.length).filterMap (fun i => (l ++ [a])[i]?) =
        (List.range l.length).filterMap (fun i => l[i]?) := by
      apply List.filterMap_congr
      intro i hi
      rw [List.mem_range] at hi
      rw [List.getElem?_append_left hi]
    rw [h1, ih]
    simp

theorem smp_run_serial (e : byte_order) (calls : List hook_call) :
    ∀ (order : List Nat) (s : smp_state), order.Nodup →
      (∀ i ∈ order, i < calls.length ∧ s.pcs[i]? = some .before) →
      smp_run e calls s (serial_schedule order) =
        { mem := run_hooks e s.mem (order.filterMap (fun i => calls[i]?)),
          pcs := order.foldl (fun p i => p.set i .done) s.pcs } := by
  intro order
  induction order with
  | nil => intro s _ _; rfl
  | cons i rest ih =>
    intro s hnd h
    obtain ⟨hi, hpc⟩ := h i (List.mem_cons_self _ _)
    have hk : calls[i]? = some calls[i] := List.getElem?_eq_getElem hi
    rw [serial_schedule, smp_run, smp_run, smp_step_twice e calls s i _ hk hpc]
    rw [ih _ (List.nodup_cons.mp hnd).2]
    · simp [List.filterMap_cons, hk, run_hooks]
    · intro j hj
      have hne : i ≠ j := fun h0 => (List.nodup_cons.mp hnd).1 (h0 ▸ hj)
      have h2 := h j (List.mem_cons_of_mem _ hj)
      exact ⟨h2.1, by simp [List.getElem?_set_ne hne, h2.2]⟩

theorem foldl_set_getElem? {α : Type} (d : α) :
    ∀ (order : List Nat) (p : List α) (j : Nat),
      (order.foldl (fun p i => p.set i d) p)[j]? =
        if j ∈ order ∧ j < p.length then some d else p[j]? := by
  intro order
  induction order with
  | nil => intro p j; simp
  | cons i rest ih =>
    intro p j
    rw [List.foldl_cons, ih, List.length_set]
    by_cases hji : j = i
    · subst hji
      by_cases hl : j < p.length
      · simp [hl, List.getElem?_set_eq_of_lt]
      · have hl2 : p.length ≤ j := Nat.le_of_not_lt hl
        simp [hl, List.set_eq_of_length_le hl2]
    · have hij : i ≠ j := fun h => hji h.symm
      simp [List.getElem?_set_ne hij, hji]

theorem smp_done_serial (calls : List hook_call) (c : m6_counters) (order : List Nat)
    (h : order.Perm (List.range calls.length)) :
    smp_done { mem := c,
               pcs := order.foldl (fun p i => p.set i cpu_pc.done) (smp_init c calls).pcs } := by
  intro pc hpc
  obtain ⟨j, hj⟩ := List.mem_iff_getElem?.mp hpc
  simp only [smp_init] at hj
  rw [foldl_set_getElem?, List.length_replicate] at hj
  by_cases hl : j < calls.length
  · have hmem : j ∈ order := h.mem_iff.mpr (List.mem_range.mpr hl)
    simp [hmem, hl] at hj
    exact hj.symm
  · have hn : ¬ (j ∈ order ∧ j < calls.length) := fun h0 => hl h0.2
    rw [if_neg hn, List.getElem?_eq_none (by simp only [List.length_replicate]; omega)] at hj
    cases hj

theorem counter_id.load_store (x : counter_id) (c : m6_counters) (v : Nat) :
    x.load (x.store c v) = v := by
  cases x <;> rfl

theorem counter_id.load_store_ne (x y : counter_id) (c : m6_counters) (v : Nat) (h : y ≠ x) :
    y.load (x.store c v) = y.load c := by
  cases x <;> cases y <;> first | rfl | exact absurd rfl h

theorem smp_step_inv (e : byte_order) (calls : List hook_call) (x : counter_id) (v0 : Nat)
    (c0 : m6_counters) (hall : ∀ k ∈ calls, incremented_counter e k = some x)
    (hv : v0 + calls.length < UINT_MOD) (s : smp_state) (i : Nat)
    (h : smp_inv calls x v0 c0 s) : smp_inv calls x v0 c0 (smp_step e calls s i) := by
  obtain ⟨hlen, hlo, hhi, hone, hreg, hframe⟩ := h
  unfold smp_step
  rcases hk : calls[i]? with _ | k
  · exact ⟨hlen, hlo, hhi, hone, hreg, hframe⟩
  rcases hp : s.pcs[i]? with _ | pc
  · exact ⟨hlen, hlo, hhi, hone, hreg, hframe⟩
  obtain ⟨hi, hpi⟩ := List.getElem?_eq_some_iff.mp hp
  simp only [hall k (List.getElem?_mem hk)]
  rcases pc with _ | r | _
  · -- the read
    have hc : (s.pcs.set i (.loaded (x.load s.mem))).count .done = s.pcs.count .done := by
      rw [List.count_set _ _ _ _ hi, hpi]
      simp
    refine ⟨by simpa using hlen, hlo, by rw [hc]; exact hhi, by rw [hc]; exact hone, ?_, hframe⟩
    intro r hr
    rw [hc]
    rcases List.mem_or_eq_of_mem_set hr with h1 | h1
    · exact hreg r h1
    · cases h1
      exact ⟨hlo, hhi⟩
  · -- the write
    have hc : (s.pcs.set i .done).count .done = s.pcs.count .done + 1 := by
      rw [List.count_set _ _ _ _ hi, hpi]
      simp
    have hle : (s.pcs.set i .done).count .done ≤ calls.length := by
      rw [← hlen, ← List.length_set s.pcs i .done]
      exact List.count_le_length _ _
    have hr := hreg r (List.getElem?_mem hp)
    have hmod : (r + 1) % UINT_MOD = r + 1 := Nat.mod_eq_of_lt (by omega)
    unfold smp_inv
    dsimp only
    rw [hmod, counter_id.load_store, hc]
    refine ⟨by simpa using hlen, by omega, by omega, fun _ => by omega, ?_, ?_⟩
    · intro r1 hr1
      rcases List.mem_or_eq_of_mem_set hr1 with h1 | h1
      · have := hreg r1 h1
        omega
      · cases h1
    · intro y hy
      rw [counter_id.load_store_ne x y _ _ hy]
      exact hframe y hy
  · exact ⟨hlen, hlo, hhi, hone, hreg, hframe⟩

theorem smp_run_inv (e : byte_order) (calls : List hook_call) (x : counter_id) (v0 : Nat)
    (c0 : m6_counters) (hall : ∀ k ∈ calls, incremented_counter e k = some x)
    (hv : v0 + calls.length < UINT_MOD) (schedule : List Nat) :
    ∀ s, smp_inv calls x v0 c0 s → smp_inv calls x v0 c0 (smp_run e calls s schedule) := by
  induction schedule with
  | nil => intro s h; exact h
  | cons i rest ih =>
    intro s h
    exact ih _ (smp_step_inv e calls x v0 c0 hall hv s i h)

theorem smp_init_inv (calls : List hook_call) (x : counter_id) (c : m6_counters) :
    smp_inv calls x (x.load c) c (smp_init c calls) := by
  refine ⟨by simp [smp_init], Nat.le_refl _, by simp [smp_init], ?_, ?_, fun _ _ => rfl⟩
  · intro h
    simp [smp_init, List.count_replicate] at h
  · intro r hr
    simp [smp_init, List.mem_replicate] at hr

theorem run_hooks_same_counter (e : byte_order) (x : counter_id) :
    ∀ (calls : List hook_call) (c : m6_counters),
      (∀ k ∈ calls, incremented_counter e k = some x) →
      x.load c + calls.length < UINT_MOD →
      x.load (run_hooks e c calls) = x.load c + calls.length := by
  intro calls
  induction calls with
  | nil => intro c _ _; rfl
  | cons k ks ih =>
    intro c hall hv
    rw [List.length_cons] at hv
    rw [run_hooks, nf_hook_counters_eq_store, hall k (List.mem_cons_self _ _)]
    have hmod : (x.load c + 1) % UINT_MOD = x.load c + 1 := Nat.mod_eq_of_lt (by omega)
    dsimp only
    rw [ih _ (fun q hq => hall q (List.mem_cons_of_mem _ hq))
      (by rw [counter_id.load_store, hmod]; omega), counter_id.load_store, hmod,
      List.length_cons]
    omega

/-- C14, amended: for calls that all increment the same counter, run on
several CPUs from a memory where that counter plus the number of calls is
below `2 ^ 32`: when the calls run one after another, in any order, each
read followed at once by its write, all calls end, the counters are those of
the sequential run and the counter is its initial value plus the number of
calls; under any schedule after which all calls have ended the counter
is at least its initial value plus one and at most its initial value plus the
number of calls, and the other counters are as they were. -/
theorem concurrent_increments_bounded (e : byte_order) (c : m6_counters)
    (calls : List hook_call) (x : counter_id)
    (hall : ∀ k ∈ calls, incremented_counter e k = some x)
    (hv : x.load c + calls.length < UINT_MOD) :
    (∀ order : List Nat, order.Perm (List.range calls.length) →
      smp_done (smp_run e calls (smp_init c calls) (serial_schedule order)) ∧
      (smp_run e calls (smp_init c calls) (serial_schedule order)).mem = run_hooks e c calls ∧
      x.load (smp_run e calls (smp_init c calls) (serial_schedule order)).mem =
        x.load c + calls.length) ∧
    (∀ schedule : List Nat, calls ≠ [] →
      smp_done (smp_run e calls (smp_init c calls) schedule) →
      x.load c + 1 ≤ x.load (smp_run e calls (smp_init c calls) schedule).mem ∧
      x.load (smp_run e calls (smp_init c calls) schedule).mem ≤ x.load c + calls.length ∧
      ∀ y, y ≠ x → y.load (smp_run e calls (smp_init c calls) schedule).mem = y.load c) := by
  constructor
  · intro order hperm
    have hnd : order.Nodup := hperm.nodup_iff.mpr (List.nodup_range _)
    have hbefore : ∀ i ∈ order, i < calls.length ∧
        (smp_init c calls).pcs[i]? = some cpu_pc.before := by
      intro i hi
      have hlt : i < calls.length := List.mem_range.mp (hperm.mem_iff.mp hi)
      exact ⟨hlt, by simp [smp_init, hlt]⟩
    have hmem : run_hooks e c (order.filterMap (fun i => calls[i]?)) = run_hooks e c calls := by
      have h1 := hperm.filterMap (fun i => calls[i]?)
      rw [filterMap_range_getElem?] at h1
      rw [run_hooks_counters, run_hooks_counters]
      simp only [label_count, h1.countP_eq]
    rw [smp_run_serial e calls order _ hnd hbefore]
    refine ⟨smp_done_serial calls _ order hperm, hmem, ?_⟩
    show x.load (run_hooks e c (order.filterMap (fun i => calls[i]?))) = _
    rw [hmem]
    exact run_hooks_same_counter e x calls c hall hv
  · intro schedule hne hdone
    obtain ⟨hlen, _, hhi, hone, _, hframe⟩ :=
      smp_run_inv e calls x (x.load c) c hall hv schedule _ (smp_init_inv calls x c)
    have hcount : (smp_run e calls (smp_init c calls) schedule).pcs.count .done =
        calls.length := by
      rw [← hlen]
      exact List.count_eq_length.mpr (fun b hb => (hdone b hb).symm)
    have hpos : 1 ≤ calls.length := by
      rcases calls with _ | ⟨k, ks⟩
      · exact absurd rfl hne
      · simp
    rw [hcount] at hhi hone
    exact ⟨hone hpos, hhi, hframe⟩

/-- C14 amended, at two class A calls from the initial counters: run one
after another, second CPU first, `count_class_a` ends at 2; with both reads
before both writes it ends at 1, within the bounds. -/
theorem concurrent_increments_bounded_witness :
    (∀ k ∈ [hook_call.ipv4 (some (ipv4_packet 10 0 0 1)), .ipv4 (some (ipv4_packet 95 0 0 1))],
      incremented_counter .little_endian k = some .count_class_a) ∧
    (smp_run .little_endian
      [.ipv4 (some (ipv4_packet 10 0 0 1)), .ipv4 (some (ipv4_packet 95 0 0 1))]
      (smp_init m6_counters.init
        [.ipv4 (some (ipv4_packet 10 0 0 1)), .ipv4 (some (ipv4_packet 95 0 0 1))])
      (serial_schedule [1, 0])).mem.count_class_a = 2 ∧
    1 ≤ (smp_run .little_endian
      [.ipv4 (some (ipv4_packet 10 0 0 1)), .ipv4 (some (ipv4_packet 95 0 0 1))]
      (smp_init m6_counters.init
        [.ipv4 (some (ipv4_packet 10 0 0 1)), .ipv4 (some (ipv4_packet 95 0 0 1))])
      [0, 1, 0, 1]).mem.count_class_a :=
  ⟨by decide,
   ((concurrent_increments_bounded .little_endian m6_counters.init
      [.ipv4 (some (ipv4_packet 10 0 0 1)), .ipv4 (some (ipv4_packet 95 0 0 1))]
      .count_class_a (by decide) (by decide)).1 [1, 0] (by decide)).2.2,
   ((concurrent_increments_bounded .little_endian m6_counters.init
      [.ipv4 (some (ipv4_packet 10 0 0 1)), .ipv4 (some (ipv4_packet 95 0 0 1))]
      .count_class_a (by decide) (by decide)).2 [0, 1, 0, 1] (by decide) (by decide)).1⟩

end M6
